import Mathlib

/-!
Shallow embedding of the Social-Media-Analyzer repository (Python) in Lean 4.

Sources embedded:
  * `utils/extract.py`  — text normalization and the PDF/image extraction pipeline
  * `utils/analyze.py`  — local analytics plus AI-insight merging
  * `utils/gemini_client.py` — the Gemini wrapper (external service as an oracle)
  * `app.py`            — the upload handler's per-file loop

Python strings are modelled as `List Char` (one entry per code point, so Python
`len` is `List.length`).  External libraries (pdfplumber, pdfminer, pytesseract,
pdf2image, PIL, vaderSentiment, the Gemini SDK, werkzeug) are modelled as
oracle fields of explicit environment structures; a call that can raise a
Python exception is modelled as `Except String α` carrying the exception text.
Python regular-expression substitutions are modelled by direct recursive
functions implementing the documented leftmost, non-overlapping `re.sub`
semantics of each concrete pattern appearing in the source.  `\w` and `\s` are
modelled at ASCII granularity (the inputs of interest are ASCII).
-/

namespace SMA

/-- ASCII model of Python's `[ \t]` character class. -/
def isBlank (c : Char) : Bool := c == ' ' || c == '\t'

/-- ASCII model of Python's whitespace (`str.strip` default set / regex `\s`). -/
def isPySpace (c : Char) : Bool :=
  c == ' ' || c == '\t' || c == '\n' || c == '\r' || c == Char.ofNat 11 || c == Char.ofNat 12

/-- ASCII model of Python's regex `\w` word-character class. -/
def isWordChar (c : Char) : Bool :=
  ('a' ≤ c && c ≤ 'z') || ('A' ≤ c && c ≤ 'Z') || ('0' ≤ c && c ≤ '9') || c == '_'

/-- Worker for Python `str.replace(pat, repl)` (all occurrences, leftmost,
non-overlapping).  `fuel` bounds the recursion; it is initialised to the
length of the string, which is enough for non-empty patterns, so the
fuel-exhausted branch is never taken in practice. -/
def pyReplaceF (pat repl : List Char) : Nat → List Char → List Char
  | _, [] => []
  | 0, s => s
  | fuel + 1, c :: rest =>
    if pat ≠ [] ∧ pat.isPrefixOf (c :: rest) then
      repl ++ pyReplaceF pat repl fuel ((c :: rest).drop pat.length)
    else
      c :: pyReplaceF pat repl fuel rest

/-- Python `str.replace(pat, repl)` on `List Char`, for a non-empty pattern. -/
def pyReplace (pat repl : List Char) (s : List Char) : List Char :=
  pyReplaceF pat repl s.length s

/-- `re.sub(r"[ \t]+\n", "\n", s)`: drop every maximal run of spaces/tabs that
immediately precedes a newline.  `pend` holds the (reversed) run of blanks not
yet known to precede a newline. -/
def remTrailWSGo (pend : List Char) : List Char → List Char
  | [] => pend.reverse
  | c :: rest =>
    if c == '\n' then '\n' :: remTrailWSGo [] rest
    else if isBlank c then remTrailWSGo (c :: pend) rest
    else pend.reverse ++ c :: remTrailWSGo [] rest

/-- `re.sub(r"[ \t]+\n", "\n", s)` on `List Char`. -/
def remTrailWS (s : List Char) : List Char := remTrailWSGo [] s

/-- `re.sub(r"\n[ \t]+", "\n", s)`: drop blanks that immediately follow a
newline.  The flag records whether the previous kept character was `'\n'`. -/
def remLeadWSGo (afterNL : Bool) : List Char → List Char
  | [] => []
  | c :: rest =>
    if afterNL && isBlank c then remLeadWSGo true rest
    else c :: remLeadWSGo (c == '\n') rest

/-- `re.sub(r"\n[ \t]+", "\n", s)` on `List Char`. -/
def remLeadWS (s : List Char) : List Char := remLeadWSGo false s

/-- Emission helper for `collapse3`: a finished run of `k` newlines is written
back as two newlines when `k ≥ 3`, else unchanged. -/
def emitNL (k : Nat) : List Char := if 3 ≤ k then ['\n', '\n'] else List.replicate k '\n'

/-- Worker for `re.sub(r"\n{3,}", "\n\n", s)`; `k` counts pending newlines. -/
def collapse3Go (k : Nat) : List Char → List Char
  | [] => emitNL k
  | c :: rest =>
    if c == '\n' then collapse3Go (k + 1) rest
    else emitNL k ++ c :: collapse3Go 0 rest

/-- `re.sub(r"\n{3,}", "\n\n", s)` on `List Char`. -/
def collapse3 (s : List Char) : List Char := collapse3Go 0 s

/-- Worker for `re.sub(r"[ \t]+", " ", s)`; the flag records whether we are
inside a blank run (whose first blank has already been emitted as `' '`). -/
def collapseBlanksGo (inRun : Bool) : List Char → List Char
  | [] => []
  | c :: rest =>
    if isBlank c then
      if inRun then collapseBlanksGo true rest else ' ' :: collapseBlanksGo true rest
    else c :: collapseBlanksGo false rest

/-- `re.sub(r"[ \t]+", " ", s)` on `List Char`. -/
def collapseBlanks (s : List Char) : List Char := collapseBlanksGo false s

/-- Drop a maximal trailing run of characters satisfying `p` (worker: `pend`
holds characters not yet known to be trailing). -/
def dropTrailGo (p : Char → Bool) (pend : List Char) : List Char → List Char
  | [] => []
  | c :: rest =>
    if p c then dropTrailGo p (pend ++ [c]) rest
    else pend ++ c :: dropTrailGo p [] rest

/-- Python `str.strip(chars)`: remove the characters satisfying `p` from both
ends. -/
def stripWith (p : Char → Bool) (s : List Char) : List Char :=
  dropTrailGo p [] (s.dropWhile p)

/-- Python `str.strip()` on `List Char`: remove leading and trailing whitespace. -/
def stripList (s : List Char) : List Char := stripWith isPySpace s

/-- Python `str.strip()` on `String`. -/
def pyStrip (s : String) : String := ⟨stripList s.data⟩

/-- No space or tab stands immediately before a newline (the strings on which
`re.sub(r"[ \t]+\n", "\n", ·)` is the identity). -/
def okTrail : List Char → Bool
  | a :: b :: rest => (!(isBlank a && b == '\n')) && okTrail (b :: rest)
  | _ => true

/-- No three consecutive newlines (the strings on which
`re.sub(r"\n{3,}", "\n\n", ·)` is the identity). -/
def noTriple : List Char → Bool
  | a :: b :: c :: rest =>
    (!(a == '\n' && b == '\n' && c == '\n')) && noTriple (b :: c :: rest)
  | _ => true

/-- `re.sub(r"(\w)-\s*\n\s*(\w)", r"\1\2", s)`: join a word broken across a
line-break hyphen.  A match is a word char, `'-'`, a whitespace run containing
at least one newline, and a word char; the match is replaced by the two word
chars and scanning resumes after the match. -/
def hyphenJoinF : Nat → List Char → List Char
  | _, [] => []
  | 0, s => s
  | fuel + 1, c1 :: '-' :: rest1 =>
    if isWordChar c1 then
      if (rest1.takeWhile isPySpace).contains '\n' then
        match rest1.dropWhile isPySpace with
        | c2 :: rest3 =>
          if isWordChar c2 then c1 :: c2 :: hyphenJoinF fuel rest3
          else c1 :: hyphenJoinF fuel ('-' :: rest1)
        | [] => c1 :: hyphenJoinF fuel ('-' :: rest1)
      else c1 :: hyphenJoinF fuel ('-' :: rest1)
    else c1 :: hyphenJoinF fuel ('-' :: rest1)
  | fuel + 1, c1 :: rest => c1 :: hyphenJoinF fuel rest

/-- `re.sub(r"(\w)-\s*\n\s*(\w)", r"\1\2", s)` on `List Char`. -/
def hyphenJoin (s : List Char) : List Char := hyphenJoinF s.length s

/-- `text.replace("\r\n", "\n").replace("\r", "\n")`. -/
def normalizeCRLF (s : List Char) : List Char :=
  pyReplace ['\r'] ['\n'] (pyReplace ['\r', '\n'] ['\n'] s)

/-- `_normalize_hyphenation_and_spaces` from `utils/extract.py`. -/
def normalize_hyphenation_and_spaces (s : List Char) : List Char :=
  if s = [] then []
  else stripList (collapse3 (remLeadWS (remTrailWS (hyphenJoin s))))

/-- The internal paragraph placeholder literal of
`_join_soft_linebreaks_keep_paragraphs`. -/
def placeholder : List Char := "<<<P>>>".data

/-- `_join_soft_linebreaks_keep_paragraphs` from `utils/extract.py`. -/
def join_soft_linebreaks_keep_paragraphs (s : List Char) : List Char :=
  if s = [] then []
  else
    stripList (collapse3 (collapseBlanks
      (pyReplace placeholder ['\n', '\n']
        (pyReplace ['\n'] [' ']
          (pyReplace ['\n', '\n'] placeholder (normalizeCRLF s))))))

/-- `_postprocess_text` from `utils/extract.py`. -/
def postprocess_text (s : List Char) (preserve : Bool) : List Char :=
  if s = [] then []
  else
    let t := normalizeCRLF s
    if preserve then stripList (collapse3 (remTrailWS t))
    else join_soft_linebreaks_keep_paragraphs (normalize_hyphenation_and_spaces t)

/-! ## PDF / image extraction pipeline (`utils/extract.py`) -/

/-- `"\n\n".join(xs)` on `List Char` pieces. -/
def joinBlankLine (xs : List (List Char)) : List Char :=
  (xs.intersperse ['\n', '\n']).flatten

/-- Environment of one `extract_text_from_pdf` call.  Each field is the
outcome of the corresponding external-library call: `.error e` models a raised
Python exception with message `e`, `.ok` its returned data.
  * `readOk`      — `file_stream.seek` / `file_stream.read`
  * `plumberPages`— per-page `page.extract_text(x_tolerance=2, y_tolerance=2) or ""`
                    results of `pdfplumber` (a page yielding `None` is `""`)
  * `minerText`   — `pdfminer_extract(..., laparams=laparams) or ""`
  * `ocrPages`    — per-page `pytesseract` output of the 300-DPI rasterisation -/
structure PdfEnv where
  readOk : Except String Unit
  plumberPages : Except String (List (List Char))
  minerText : Except String (List Char)
  ocrPages : Except String (List (List Char))

/-- `_extract_with_pdfplumber`: keep each page's stripped text when non-empty,
join pages with a blank line, then normalize. -/
def extract_with_pdfplumber (pages : List (List Char)) (preserve : Bool) : List Char :=
  postprocess_text
    (joinBlankLine (pages.filterMap fun t =>
      if stripList t = [] then none else some (stripList t)))
    preserve

/-- `_extract_with_pdfminer`: normalize the whole-document text. -/
def extract_with_pdfminer (raw : List Char) (preserve : Bool) : List Char :=
  postprocess_text raw preserve

/-- `_ocr_scanned_pdf`: per-page OCR text, stripped, non-empty pages joined
with a blank line, then normalized. -/
def ocr_scanned_pdf (pages : List (List Char)) (preserve : Bool) : List Char :=
  postprocess_text
    (joinBlankLine (pages.filterMap fun t =>
      if stripList t = [] then none else some (stripList t)))
    preserve

/-- The sentinel returned when even OCR finds no text. -/
def noTextSentinel : List Char := "No text found (even with OCR).".data

/-- The body of the `try:` block of `extract_text_from_pdf`: ordered fallback
pdfplumber → pdfminer → OCR.  `.error` is an uncaught internal exception. -/
def pdfPipeline (env : PdfEnv) (preserve : Bool) : Except String (List Char) :=
  match env.readOk with
  | .error e => .error e
  | .ok _ =>
    match env.plumberPages with
    | .error e => .error e
    | .ok pages =>
      let text_plumber := extract_with_pdfplumber pages preserve
      if text_plumber ≠ [] ∧ 10 < text_plumber.length then .ok text_plumber
      else
        match env.minerText with
        | .error e => .error e
        | .ok raw =>
          let text_miner := extract_with_pdfminer raw preserve
          if text_miner ≠ [] ∧ 10 < text_miner.length then .ok text_miner
          else
            match env.ocrPages with
            | .error e => .error e
            | .ok opages =>
              let ocr_text := ocr_scanned_pdf opages preserve
              .ok (if ocr_text ≠ [] then ocr_text else noTextSentinel)

/-- The pipeline resumed at step 2 (pdfminer), as the code continues after an
insufficient pdfplumber result. -/
def pdfPipelineFromMiner (env : PdfEnv) (preserve : Bool) : Except String (List Char) :=
  match env.minerText with
  | .error e => .error e
  | .ok raw =>
    let text_miner := extract_with_pdfminer raw preserve
    if text_miner ≠ [] ∧ 10 < text_miner.length then .ok text_miner
    else
      match env.ocrPages with
      | .error e => .error e
      | .ok opages =>
        let ocr_text := ocr_scanned_pdf opages preserve
        .ok (if ocr_text ≠ [] then ocr_text else noTextSentinel)

/-- The pipeline resumed at step 3 (OCR of the rasterised pages). -/
def pdfPipelineFromOcr (env : PdfEnv) (preserve : Bool) : Except String (List Char) :=
  match env.ocrPages with
  | .error e => .error e
  | .ok opages =>
    let ocr_text := ocr_scanned_pdf opages preserve
    .ok (if ocr_text ≠ [] then ocr_text else noTextSentinel)

/-- `extract_text_from_pdf`: the whole body runs inside `try/except`, and a
raised exception `e` is converted to the error string
`f"Error extracting PDF text: {e}"`. -/
def extract_text_from_pdf (env : PdfEnv) (preserve : Bool) : List Char :=
  match pdfPipeline env preserve with
  | .ok s => s
  | .error e => "Error extracting PDF text: ".data ++ e.data

/-- Environment of one `extract_text_from_image` call: `ocrRaw` is the result
of `Image.open` + `_ocr_image` (an exception anywhere in `seek`/`read`/decode/
OCR is `.error`). -/
structure ImgEnv where
  ocrRaw : Except String (List Char)

/-- The body of the `try:` block of `extract_text_from_image`. -/
def imgPipeline (env : ImgEnv) (preserve : Bool) : Except String (List Char) :=
  match env.ocrRaw with
  | .error e => .error e
  | .ok raw => .ok (postprocess_text (stripList raw) preserve)

/-- `extract_text_from_image` with its `try/except` wrapper. -/
def extract_text_from_image (env : ImgEnv) (preserve : Bool) : List Char :=
  match imgPipeline env preserve with
  | .ok s => s
  | .error e => "Error extracting image text: ".data ++ e.data

/-! ## Upload handler (`app.py`) -/

/-- The accepted-extensions set `ALLOWED`. -/
def ALLOWED : List String := ["pdf", "png", "jpg", "jpeg"]

/-- ASCII model of Python `str.lower()`. -/
def pyLower (s : String) : String := ⟨s.data.map Char.toLower⟩

/-- `filename.rsplit(".", 1)[1]`: the part after the last dot, when the string
contains a dot (`none` models the `IndexError` raised otherwise). -/
def afterLastDot (s : String) : Option String :=
  if s.data.contains '.' then
    some ⟨((s.data.reverse.takeWhile (· ≠ '.')).reverse)⟩
  else none

/-- `allowed(filename)` from `app.py`. -/
def allowed (filename : String) : Bool :=
  match afterLastDot filename with
  | some ext => ALLOWED.contains (pyLower ext)
  | none => false

/-- One uploaded file: its client-side filename and the oracle outcomes of the
extraction libraries on its byte stream. -/
structure UploadFile where
  filename : String
  pdfEnv : PdfEnv
  imgEnv : ImgEnv

/-- One entry of the handler's `results` list. -/
structure FileResult where
  filename : String
  text : List Char
deriving DecidableEq

/-- Request-level environment: `secure` models werkzeug's `secure_filename`,
`preserve` the startup `PRESERVE_FORMATTING` flag. -/
structure HandlerEnv where
  secure : String → String
  preserve : Bool

/-- The per-file loop of `index()` in `app.py`.  For each file: rejected with
an `"Unsupported: "` error when `allowed` fails; otherwise the extension of the
secured name routes to the PDF or image extractor, the extracted text is
stripped, and a non-empty text joins `results` while an empty one adds a
`"No text in "` error.  `ext = name.rsplit(".", 1)[1]` runs outside the
per-file `try`, so a secured name without a dot raises out of the handler
(modelled by `.error`); nothing inside the `try` can raise, since both
extractors always return a string. -/
def processFiles (env : HandlerEnv) : List UploadFile → Except String (List FileResult × List String)
  | [] => .ok ([], [])
  | f :: rest =>
    if ¬ allowed f.filename then
      (processFiles env rest).map fun (r, e) =>
        (r, ("Unsupported: " ++ f.filename) :: e)
    else
      let name := env.secure f.filename
      match afterLastDot name with
      | none => .error "IndexError"
      | some ext0 =>
        let ext := pyLower ext0
        let text :=
          if ext = "pdf" then extract_text_from_pdf f.pdfEnv env.preserve
          else extract_text_from_image f.imgEnv env.preserve
        let text := stripList text
        (processFiles env rest).map fun (r, e) =>
          if text ≠ [] then (⟨name, text⟩ :: r, e)
          else (r, ("No text in " ++ name) :: e)

/-- `combined = "\n\n".join(r["text"] for r in results)`. -/
def combinedText (results : List FileResult) : List Char :=
  joinBlankLine (results.map (·.text))

/-! ## Gemini client (`utils/gemini_client.py`)

The external generative-AI service is an oracle: `response` is the outcome of
`model.generate_content(...)` followed by `rsp.text` (an exception anywhere is
`.error`), `parse` is `json.loads` on the de-fenced response.  A parsed JSON
object is modelled by `PyJson`: a dict with the five prompted keys, or any
non-dict value. -/

/-- The five keys the prompt asks Gemini for; a missing key is `none`.
The all-`none` value `{}` models the empty Python dict `{}`. -/
structure GDict where
  caption : Option String := none
  hashtags : Option (List String) := none
  suggestions : Option (List String) := none
  tone : Option String := none
  confidence : Option ℚ := none
deriving DecidableEq

/-- A parsed JSON value as `generate_insights_with_gemini` can return it. -/
inductive PyJson where
  | dict (d : GDict)
  | other
deriving DecidableEq

/-- Oracle environment of one Gemini call. -/
structure GeminiEnv where
  apiKey : Option String
  response : Except String String
  parse : String → Except String PyJson

/-- Characters removed by `raw.strip("` \n")` after fence removal. -/
def isFenceStripChar (c : Char) : Bool := ("` \x0a".data).contains c

/-- De-fence a raw response that starts with three backticks:
`re.sub(r"^```(?:json)?", "", raw)` followed by `raw.strip("` \n")`. -/
def stripFence (raw : String) : String :=
  let d := raw.data.drop 3
  let d := if "json".data.isPrefixOf d then d.drop 4 else d
  ⟨stripWith isFenceStripChar d⟩

/-- `raw = rsp.text.strip()`, then markdown-fence stripping when present. -/
def geminiProcessRaw (rspText : String) : String :=
  let raw := pyStrip rspText
  if "```".data.isPrefixOf raw.data then stripFence raw else raw

/-- `generate_insights_with_gemini` from `utils/gemini_client.py`: `{}` when
there is no API key, when the service call raises, or when JSON parsing fails;
otherwise the parsed value. -/
def generate_insights_with_gemini (env : GeminiEnv) (_text : String) : PyJson :=
  match env.apiKey with
  | none => .dict {}
  | some _ =>
    match env.response with
    | .error _ => .dict {}
    | .ok rspText =>
      match env.parse (geminiProcessRaw rspText) with
      | .error _ => .dict {}
      | .ok v => v

/-! ## Analytics (`utils/analyze.py`)

`vaderSentiment`'s `polarity_scores` is an oracle returning four scores,
modelled as exact rationals; Python's `float` repr used by the f-strings is an
oracle `floatRepr` (float formatting is not embeddable), and `round(x, 2)` is
modelled as exact rational rounding to two decimals. -/

/-- The four `polarity_scores` values. -/
structure SentScores where
  neg : ℚ
  neu : ℚ
  pos : ℚ
  compound : ℚ

/-- The `summary["sentiment"]` sub-dict. -/
structure SentimentMsg where
  compound : String
  pos : String
  neu : String
  neg : String
deriving DecidableEq

/-- `summary["gemini_confidence"]`: a number, or `""` when Gemini gave none. -/
inductive ConfVal where
  | num (q : ℚ)
  | blank
deriving DecidableEq

/-- The `summary` dict of a non-empty analysis. -/
structure Summary where
  words : String
  chars : String
  avg_word_len : String
  hashtags : String
  mentions : String
  urls : String
  tone : String
  sentiment : SentimentMsg
  top_keywords : List (String × Nat)
  gemini_confidence : ConfVal
deriving DecidableEq

/-- The `ai_generated` dict of a non-empty analysis. -/
structure AiGen where
  caption : String
  recommended_hashtags : List String
deriving DecidableEq

/-- The full return value of `analyze_text`.  The empty-input early return
`{"summary": {}, "engagement": [], "ai_generated": {}}` is modelled with
`none` for the two empty dicts. -/
structure Analysis where
  summary : Option Summary
  engagement : List String
  ai_generated : Option AiGen
deriving DecidableEq

/-- Oracle environment of `analyze_text`: the sentiment library and Python
float formatting. -/
structure AnalyzeEnv where
  polarity : String → SentScores
  floatRepr : ℚ → String

/-- Characters of the `tokenize` regex class `[A-Za-z0-9_']`. -/
def isTokChar (c : Char) : Bool :=
  ('a' ≤ c && c ≤ 'z') || ('A' ≤ c && c ≤ 'Z') || ('0' ≤ c && c ≤ '9') ||
    c == '_' || c == Char.ofNat 39

/-- `re.findall` of a character-class-plus pattern: the maximal runs of
characters satisfying `p`, in order. -/
def findRunsF (p : Char → Bool) : Nat → List Char → List (List Char)
  | _, [] => []
  | 0, _ => []
  | fuel + 1, c :: rest =>
    if p c then (c :: rest.takeWhile p) :: findRunsF p fuel (rest.dropWhile p)
    else findRunsF p fuel rest

/-- Maximal runs of characters satisfying `p` (fuelled scanner). -/
def findRuns (p : Char → Bool) (s : List Char) : List (List Char) :=
  findRunsF p s.length s

/-- `tokenize` from `utils/analyze.py`: `re.findall(r"[A-Za-z0-9_']+", text)`. -/
def tokenize (s : List Char) : List (List Char) := findRuns isTokChar s

/-- `re.findall(r"#\w+", s)` (and with `@` for mentions): a marker character
followed by a non-empty word-character run. -/
def tagMatchesF (sym : Char) : Nat → List Char → List (List Char)
  | _, [] => []
  | 0, _ => []
  | fuel + 1, c :: rest =>
    if c == sym then
      if rest.takeWhile isWordChar ≠ [] then
        (c :: rest.takeWhile isWordChar) :: tagMatchesF sym fuel (rest.dropWhile isWordChar)
      else tagMatchesF sym fuel rest
    else tagMatchesF sym fuel rest

/-- `re.findall(r"#\w+", s)` / `re.findall(r"@\w+", s)`. -/
def tagMatches (sym : Char) (s : List Char) : List (List Char) :=
  tagMatchesF sym s.length s

/-- `re.findall(r"https?://\S+", s)`: at a position starting with an HTTP
scheme whose match can extend by at least one non-space character past the
scheme, the match is the maximal non-space run; scanning resumes after it. -/
def urlMatchesF : Nat → List Char → List (List Char)
  | _, [] => []
  | 0, _ => []
  | fuel + 1, c :: rest =>
    if ("https://".data.isPrefixOf (c :: rest) ∧
          8 < ((c :: rest).takeWhile (fun x => !isPySpace x)).length) ∨
       ("http://".data.isPrefixOf (c :: rest) ∧
          7 < ((c :: rest).takeWhile (fun x => !isPySpace x)).length) then
      ((c :: rest).takeWhile (fun x => !isPySpace x)) ::
        urlMatchesF fuel ((c :: rest).dropWhile (fun x => !isPySpace x))
    else urlMatchesF fuel rest

/-- `re.findall(r"https?://\S+", s)`. -/
def urlMatches (s : List Char) : List (List Char) := urlMatchesF s.length s

/-- First occurrences, in order (the key order of `Counter(list)`). -/
def firstUniqAux (seen : List (List Char)) : List (List Char) → List (List Char)
  | [] => []
  | x :: r => if seen.contains x then firstUniqAux seen r else x :: firstUniqAux (x :: seen) r

/-- Keys of `Counter(l)` in insertion order. -/
def firstUniques (l : List (List Char)) : List (List Char) := firstUniqAux [] l

/-- Stable insertion of one counted keyword into a count-descending list
(`Counter.most_common` sorts by count descending, stable on ties). -/
def mcInsert (x : String × Nat) : List (String × Nat) → List (String × Nat)
  | [] => [x]
  | y :: r => if y.2 ≤ x.2 then x :: y :: r else y :: mcInsert x r

/-- Stable descending-by-count sort, as `Counter.most_common` produces. -/
def mostCommonSort (l : List (String × Nat)) : List (String × Nat) :=
  l.foldr mcInsert []

/-- `Counter(ws).most_common(n)`. -/
def mostCommon (ws : List (List Char)) (n : Nat) : List (String × Nat) :=
  (mostCommonSort ((firstUniques ws).map fun w => (String.mk w, ws.count w))).take n

/-- Round-half-even of the fraction `n / d` (`d > 0`), as Python `round`. -/
def pyRoundInt (n : ℤ) (d : ℤ) : ℤ :=
  let f := Int.fdiv n d
  let r := n - f * d
  if 2 * r < d then f
  else if d < 2 * r then f + 1
  else if f % 2 = 0 then f else f + 1

/-- `round(q, 2)` (exact rational rounding, half-even as Python `round`;
Python rounds the nearest binary float, which agrees except on
representation-boundary cases). -/
def round2 (q : ℚ) : ℚ := Rat.divInt (pyRoundInt (q.num * 100) q.den) 100

/-- Python `str.capitalize()`. -/
def pyCapitalize (s : String) : String :=
  match s.data with
  | [] => ""
  | c :: r => ⟨Char.toUpper c :: r.map Char.toLower⟩

/-- Python `x or default` on an optional string (`None` and `""` are falsy). -/
def pyOrStr (v : Option String) (dflt : String) : String :=
  match v with
  | some s => if s = "" then dflt else s
  | none => dflt

/-- Python `x or []` on an optional list (`None` and `[]` are falsy). -/
def pyOrNilList (v : Option (List String)) : List String :=
  match v with
  | some l => l
  | none => []

/-- The literal fallback caption of `analyze_text`. -/
def defaultCaption : String := "Add a concise, benefit-led caption."

/-- `analyze_text` from `utils/analyze.py`. -/
def analyze_text (aenv : AnalyzeEnv) (genv : GeminiEnv) (text0 : String) : Analysis :=
  let text := pyStrip text0
  if text = "" then ⟨none, [], none⟩
  else
    let sentiment := aenv.polarity text
    let words := tokenize text.data
    let wc := words.length
    let hashtags := tagMatches '#' text.data
    let mentions := tagMatches '@' text.data
    let urls := urlMatches text.data
    let top := mostCommon ((words.filter fun w => 2 < w.length).map (·.map Char.toLower)) 8
    let compound := sentiment.compound
    let local_tone : String :=
      if compound > Rat.divInt 5 100 then "Positive"
      else if compound < Rat.divInt (-5) 100 then "Negative"
      else "Neutral"
    let word_msg :=
      if wc < 50 then toString wc ++ " (very short - may lack context)"
      else if wc > 300 then toString wc ++ " (long - consider trimming for attention)"
      else toString wc ++ " (medium length - good for LinkedIn)"
    let avg_len : ℚ := round2 (Rat.divInt ((words.map List.length).sum : ℤ) ((max 1 wc : ℕ) : ℤ))
    let avg_len_msg :=
      if avg_len < 5 then aenv.floatRepr avg_len ++ " - Easy to read"
      else if avg_len < 7 then aenv.floatRepr avg_len ++ " - Moderate complexity"
      else aenv.floatRepr avg_len ++ " - Complex, may reduce engagement"
    let hashtag_msg := toString hashtags.length ++
      (if hashtags.length = 0 then " - Missing hashtags"
       else if hashtags.length < 3 then " - Could add more for reach"
       else " - Good use")
    let mention_msg := toString mentions.length ++
      (if mentions.length > 0 then " - Strong collaboration tagging" else "")
    let url_msg := toString urls.length ++
      (if urls.length > 2 then " - May appear promotional if all are kept" else "")
    let sentiment_msg : SentimentMsg :=
      { compound := aenv.floatRepr sentiment.compound ++ " (Overall tone: " ++ local_tone ++ ")"
        pos := aenv.floatRepr sentiment.pos ++ (if sentiment.pos > 0 then " - Slightly positive" else "")
        neu := aenv.floatRepr sentiment.neu ++ (if sentiment.neu > Rat.divInt 7 10 then " - Mostly neutral" else "")
        neg := aenv.floatRepr sentiment.neg ++ (if sentiment.neg = 0 then " - No negativity" else "") }
    let g := generate_insights_with_gemini genv text
    let gdict : Option GDict := match g with | .dict d => some d | .other => none
    let ai_caption := pyOrStr (gdict.bind (·.caption)) defaultCaption
    let ai_hashtags := pyOrNilList (gdict.bind (·.hashtags))
    let ai_suggestions := pyOrNilList (gdict.bind (·.suggestions))
    let gemini_tone := gdict.bind (·.tone)
    let gemini_conf := gdict.bind (·.confidence)
    let display_tone :=
      match gemini_tone with
      | some t => if t ≠ "" then pyCapitalize t else local_tone
      | none => local_tone
    { summary := some
        { words := word_msg
          chars := toString text.length
          avg_word_len := avg_len_msg
          hashtags := hashtag_msg
          mentions := mention_msg
          urls := url_msg
          tone := display_tone
          sentiment := sentiment_msg
          top_keywords := top
          gemini_confidence := match gemini_conf with | some q => .num q | none => .blank }
      engagement := ai_suggestions
      ai_generated := some { caption := ai_caption, recommended_hashtags := ai_hashtags } }

/-- Failure of the Gemini call: no API key, a raised service call, or an
unparseable response — the three paths on which
`generate_insights_with_gemini` returns `{}`. -/
def geminiFails (env : GeminiEnv) : Prop :=
  env.apiKey = none ∨ (∃ e, env.response = .error e) ∨
    (∃ raw e, env.response = .ok raw ∧ env.parse (geminiProcessRaw raw) = .error e)

/-- The `summary` dict built by `analyze_text` from local computation alone
(`tone` the local VADER tone, `gemini_confidence` the `""` default), exactly as
the code computes it when the Gemini dict is empty. -/
def localSummary (aenv : AnalyzeEnv) (text : String) : Summary :=
  let sentiment := aenv.polarity text
  let words := tokenize text.data
  let wc := words.length
  let hashtags := tagMatches '#' text.data
  let mentions := tagMatches '@' text.data
  let urls := urlMatches text.data
  let top := mostCommon ((words.filter fun w => 2 < w.length).map (·.map Char.toLower)) 8
  let compound := sentiment.compound
  let local_tone : String :=
    if compound > Rat.divInt 5 100 then "Positive"
    else if compound < Rat.divInt (-5) 100 then "Negative"
    else "Neutral"
  let word_msg :=
    if wc < 50 then toString wc ++ " (very short - may lack context)"
    else if wc > 300 then toString wc ++ " (long - consider trimming for attention)"
    else toString wc ++ " (medium length - good for LinkedIn)"
  let avg_len : ℚ := round2 (Rat.divInt ((words.map List.length).sum : ℤ) ((max 1 wc : ℕ) : ℤ))
  let avg_len_msg :=
    if avg_len < 5 then aenv.floatRepr avg_len ++ " - Easy to read"
    else if avg_len < 7 then aenv.floatRepr avg_len ++ " - Moderate complexity"
    else aenv.floatRepr avg_len ++ " - Complex, may reduce engagement"
  let hashtag_msg := toString hashtags.length ++
    (if hashtags.length = 0 then " - Missing hashtags"
     else if hashtags.length < 3 then " - Could add more for reach"
     else " - Good use")
  let mention_msg := toString mentions.length ++
    (if mentions.length > 0 then " - Strong collaboration tagging" else "")
  let url_msg := toString urls.length ++
    (if urls.length > 2 then " - May appear promotional if all are kept" else "")
  let sentiment_msg : SentimentMsg :=
    { compound := aenv.floatRepr sentiment.compound ++ " (Overall tone: " ++ local_tone ++ ")"
      pos := aenv.floatRepr sentiment.pos ++ (if sentiment.pos > 0 then " - Slightly positive" else "")
      neu := aenv.floatRepr sentiment.neu ++ (if sentiment.neu > Rat.divInt 7 10 then " - Mostly neutral" else "")
      neg := aenv.floatRepr sentiment.neg ++ (if sentiment.neg = 0 then " - No negativity" else "") }
  { words := word_msg
    chars := toString text.length
    avg_word_len := avg_len_msg
    hashtags := hashtag_msg
    mentions := mention_msg
    urls := url_msg
    tone := local_tone
    sentiment := sentiment_msg
    top_keywords := top
    gemini_confidence := .blank }

/-- `sep.join(xs)`-shaped concatenation: the blocks of `xs` joined by single
copies of `sep`.  Inputs of this shape quantify over texts with any number of
placeholder occurrences separating text blocks. -/
def sepBy (sep : List Char) : List (List Char) → List Char
  | [] => []
  | [x] => x
  | x :: y :: rest => x ++ sep ++ sepBy sep (y :: rest)

/-- `"<<<P>>>" not in x`: the placeholder occurs at no position of `x`. -/
def placeholderFree (x : List Char) : Bool :=
  (List.range x.length).all fun i => ! placeholder.isPrefixOf (x.drop i)

/-! ## Concrete environments used to instantiate the theorems -/

/-- A sentiment oracle that scores everything `0` and a fixed float repr. -/
def wAnalyzeEnv : AnalyzeEnv := ⟨fun _ => ⟨0, 0, 0, 0⟩, fun _ => "0.0"⟩

/-- A Gemini environment with no API key (and a failing call behind it). -/
def wGeminiFailEnv : GeminiEnv := ⟨none, .error "no net", fun _ => .error "bad json"⟩

/-- A PDF whose pdfplumber and pdfminer results are too short (≤ 10 chars)
and whose rasterised pages yield no OCR text. -/
def wPdfEnvShort : PdfEnv := ⟨.ok (), .ok ["hi".data], .ok "short".data, .ok []⟩

/-- A PDF whose very first read raises. -/
def wPdfEnvErr : PdfEnv := ⟨.error "boom", .ok [], .ok [], .ok []⟩

/-- A request environment: identity `secure_filename`, flow mode. -/
def wHandlerEnv : HandlerEnv := ⟨id, false⟩

/-- An upload with a disallowed extension. -/
def wDocxFile : UploadFile := ⟨"doc.docx", wPdfEnvShort, ⟨.ok []⟩⟩

/-- An allowed PDF upload whose extraction raises internally. -/
def wErrPdfFile : UploadFile := ⟨"x.pdf", wPdfEnvErr, ⟨.ok []⟩⟩

/-- An allowed PNG upload whose extraction raises internally. -/
def wErrImgFile : UploadFile := ⟨"x.png", wPdfEnvShort, ⟨.error "img boom"⟩⟩

/-! ## General lemmas -/

theorem stripWith_cons_ne (p : Char → Bool) (c : Char) (t : List Char) (h : p c = false) :
    stripWith p (c :: t) = c :: dropTrailGo p [] t := by
  unfold stripWith
  rw [List.dropWhile_cons_of_neg (by simp [h])]
  simp [dropTrailGo, h]

theorem stripList_cons_ne (c : Char) (t : List Char) (h : isPySpace c = false) :
    stripList (c :: t) ≠ [] := by
  unfold stripList
  rw [stripWith_cons_ne _ _ _ h]
  simp

theorem pyReplaceF_cons_pos (pat repl : List Char) (g : Nat) (c : Char) (rest : List Char)
    (hne : pat ≠ []) (hp : pat.isPrefixOf (c :: rest) = true) :
    pyReplaceF pat repl (g + 1) (c :: rest) =
      repl ++ pyReplaceF pat repl g ((c :: rest).drop pat.length) := by
  rw [pyReplaceF.eq_3]
  rw [if_pos ⟨hne, hp⟩]

theorem pyReplaceF_cons_neg (pat repl : List Char) (g : Nat) (c : Char) (rest : List Char)
    (h : ¬ (pat ≠ [] ∧ pat.isPrefixOf (c :: rest) = true)) :
    pyReplaceF pat repl (g + 1) (c :: rest) = c :: pyReplaceF pat repl g rest := by
  rw [pyReplaceF.eq_3]
  rw [if_neg h]

theorem pyReplaceF_id_of_head_notMem (ph : Char) (pt repl : List Char) :
    ∀ (s : List Char) (fuel : Nat), ph ∉ s → pyReplaceF (ph :: pt) repl fuel s = s := by
  intro s
  induction s with
  | nil => intro fuel _; cases fuel <;> rfl
  | cons c rest ih =>
    intro fuel hmem
    cases fuel with
    | zero => rfl
    | succ g =>
      have hc : ph ≠ c := fun h => hmem (h ▸ List.mem_cons_self c rest)
      have hpre : (ph :: pt).isPrefixOf (c :: rest) = false := by
        simp [List.isPrefixOf, beq_eq_false_iff_ne.mpr hc]
      show (if (ph :: pt) ≠ [] ∧ (ph :: pt).isPrefixOf (c :: rest) then _ else _) = _
      rw [if_neg (by simp [hpre])]
      exact congrArg (c :: ·) (ih g fun h => hmem (List.mem_cons_of_mem c h))

theorem pyReplace_id_of_head_notMem (ph : Char) (pt repl : List Char) (s : List Char)
    (h : ph ∉ s) : pyReplace (ph :: pt) repl s = s :=
  pyReplaceF_id_of_head_notMem ph pt repl s s.length h

theorem pyReplaceF_seg (ph : Char) (pt repl b : List Char) (hb : ph ∉ b) :
    ∀ (a : List Char) (fuel : Nat), a.length < fuel → ph ∉ a →
      pyReplaceF (ph :: pt) repl fuel (a ++ (ph :: pt) ++ b) = a ++ repl ++ b := by
  intro a
  induction a with
  | nil =>
    intro fuel hfuel _
    cases fuel with
    | zero => omega
    | succ g =>
      show (if (ph :: pt) ≠ [] ∧ (ph :: pt).isPrefixOf ((ph :: pt) ++ b) then _ else _) = _
      rw [if_pos ⟨by simp, List.isPrefixOf_iff_prefix.mpr (List.prefix_append _ _)⟩]
      show repl ++ pyReplaceF (ph :: pt) repl g (List.drop (ph :: pt).length ((ph :: pt) ++ b)) =
        [] ++ repl ++ b
      rw [List.drop_left]
      rw [pyReplaceF_id_of_head_notMem ph pt repl b g hb]
      simp
  | cons c a' ih =>
    intro fuel hfuel hmem
    cases fuel with
    | zero => omega
    | succ g =>
      have hc : ph ≠ c := fun h => hmem (h ▸ List.mem_cons_self c a')
      have hpre : ¬ ((ph :: pt).isPrefixOf (c :: (a' ++ (ph :: pt) ++ b)) = true) := by
        intro htrue
        exact hc (List.cons_prefix_cons.mp (List.isPrefixOf_iff_prefix.mp htrue)).1
      show (if (ph :: pt) ≠ [] ∧ (ph :: pt).isPrefixOf (c :: (a' ++ (ph :: pt) ++ b)) then _ else _) = _
      rw [if_neg (fun hcond => hpre hcond.2)]
      have hrec := ih g (by simp at hfuel ⊢; omega) (fun h => hmem (List.mem_cons_of_mem c h))
      show c :: pyReplaceF (ph :: pt) repl g (a' ++ (ph :: pt) ++ b) = (c :: a') ++ repl ++ b
      rw [hrec]
      simp

theorem pyReplace_seg (ph : Char) (pt repl : List Char) (a b : List Char)
    (ha : ph ∉ a) (hb : ph ∉ b) :
    pyReplace (ph :: pt) repl (a ++ (ph :: pt) ++ b) = a ++ repl ++ b := by
  unfold pyReplace
  exact pyReplaceF_seg ph pt repl b hb a _ (by simp) ha

theorem hyphenJoinF_id_of_no_nl :
    ∀ (fuel : Nat) (s : List Char), '\n' ∉ s → hyphenJoinF fuel s = s := by
  intro fuel
  induction fuel with
  | zero => intro s _; cases s <;> rfl
  | succ g ih =>
    intro s hs
    cases s with
    | nil => rfl
    | cons c1 t =>
      cases t with
      | nil =>
        rw [hyphenJoinF.eq_4 g c1 [] (by intro r1 hr; cases hr)]
        rw [hyphenJoinF.eq_1]
      | cons c2 rest =>
        have hrec : hyphenJoinF g (c2 :: rest) = c2 :: rest :=
          ih _ (fun h => hs (List.mem_cons_of_mem c1 h))
        by_cases hc2 : c2 = '-'
        · subst hc2
          have hnotw : '\n' ∉ rest.takeWhile isPySpace := fun hmem =>
            hs (List.mem_cons_of_mem _ (List.mem_cons_of_mem _
              ((List.takeWhile_sublist _).subset hmem)))
          rw [hyphenJoinF.eq_3]
          by_cases hw : isWordChar c1
          · rw [if_pos hw, if_neg (by simpa using hnotw), hrec]
          · rw [if_neg hw, hrec]
        · rw [hyphenJoinF.eq_4 g c1 (c2 :: rest)
            (fun r1 hr => hc2 (by injection hr with h1 h2)), hrec]

theorem hyphenJoin_id_of_no_nl (s : List Char) (h : '\n' ∉ s) : hyphenJoin s = s :=
  hyphenJoinF_id_of_no_nl s.length s h

theorem remTrailWSGo_of_no_nl :
    ∀ (s : List Char) (pend : List Char), '\n' ∉ s →
      remTrailWSGo pend s = pend.reverse ++ s := by
  intro s
  induction s with
  | nil => intro pend _; simp [remTrailWSGo]
  | cons c rest ih =>
    intro pend hs
    have hc : ¬ (c == '\n') := by
      simp only [beq_iff_eq]
      exact fun h => hs (h ▸ List.mem_cons_self c rest)
    have hrest : '\n' ∉ rest := fun h => hs (List.mem_cons_of_mem c h)
    unfold remTrailWSGo
    rw [if_neg hc]
    by_cases hb : isBlank c
    · rw [if_pos hb, ih (c :: pend) hrest]
      simp
    · rw [if_neg hb, ih [] hrest]
      simp

theorem remTrailWS_id_of_no_nl (s : List Char) (h : '\n' ∉ s) : remTrailWS s = s := by
  unfold remTrailWS
  rw [remTrailWSGo_of_no_nl s [] h]
  simp

theorem remLeadWSGo_id_of_no_nl :
    ∀ (s : List Char), '\n' ∉ s → remLeadWSGo false s = s := by
  intro s
  induction s with
  | nil => intro _; rfl
  | cons c rest ih =>
    intro hs
    have hc : (c == '\n') = false := by
      simp only [beq_eq_false_iff_ne]
      exact fun h => hs (h ▸ List.mem_cons_self c rest)
    unfold remLeadWSGo
    rw [if_neg (by simp)]
    rw [hc, ih (fun h => hs (List.mem_cons_of_mem c h))]

theorem remLeadWS_id_of_no_nl (s : List Char) (h : '\n' ∉ s) : remLeadWS s = s :=
  remLeadWSGo_id_of_no_nl s h

theorem collapse3Go_id_of_no_nl :
    ∀ (s : List Char), '\n' ∉ s → collapse3Go 0 s = s := by
  intro s
  induction s with
  | nil => intro _; rfl
  | cons c rest ih =>
    intro hs
    have hc : ¬ (c == '\n') := by
      simp only [beq_iff_eq]
      exact fun h => hs (h ▸ List.mem_cons_self c rest)
    unfold collapse3Go
    rw [if_neg hc, ih (fun h => hs (List.mem_cons_of_mem c h))]
    rfl

theorem collapse3_id_of_no_nl (s : List Char) (h : '\n' ∉ s) : collapse3 s = s :=
  collapse3Go_id_of_no_nl s h

theorem collapse3Go_seg (a b : List Char) (ha : '\n' ∉ a) (hb : '\n' ∉ b)
    (hbne : b ≠ []) : collapse3Go 0 (a ++ '\n' :: '\n' :: b) = a ++ '\n' :: '\n' :: b := by
  induction a with
  | nil =>
    match b, hbne with
    | c :: rest, _ =>
      have hc : ¬ (c == '\n') := by
        simp only [beq_iff_eq]
        exact fun h => hb (h ▸ List.mem_cons_self c rest)
      show collapse3Go 0 ('\n' :: '\n' :: c :: rest) = _
      unfold collapse3Go
      rw [if_pos (by simp)]
      unfold collapse3Go
      rw [if_pos (by simp)]
      unfold collapse3Go
      rw [if_neg hc, collapse3Go_id_of_no_nl rest (fun h => hb (List.mem_cons_of_mem c h))]
      rfl
  | cons c a' ih =>
    have hc : ¬ (c == '\n') := by
      simp only [beq_iff_eq]
      exact fun h => ha (h ▸ List.mem_cons_self c a')
    show collapse3Go 0 (c :: (a' ++ '\n' :: '\n' :: b)) = _
    unfold collapse3Go
    rw [if_neg hc, ih (fun h => ha (List.mem_cons_of_mem c h))]
    rfl

theorem collapseBlanksGo_id_of_no_blank :
    ∀ (s : List Char) (flag : Bool), (∀ c ∈ s, isBlank c = false) →
      collapseBlanksGo flag s = s := by
  intro s
  induction s with
  | nil => intro flag _; rfl
  | cons c rest ih =>
    intro flag hs
    unfold collapseBlanksGo
    rw [if_neg (by simp [hs c (List.mem_cons_self c rest)])]
    rw [ih false (fun x hx => hs x (List.mem_cons_of_mem c hx))]

theorem collapseBlanks_id_of_no_blank (s : List Char)
    (h : ∀ c ∈ s, isBlank c = false) : collapseBlanks s = s :=
  collapseBlanksGo_id_of_no_blank s false h

theorem dropTrailGo_of_last_ne (p : Char → Bool) :
    ∀ (s : List Char) (pend : List Char), s ≠ [] →
      (∀ hne : s ≠ [], p (s.getLast hne) = false) →
      dropTrailGo p pend s = pend ++ s := by
  intro s
  induction s with
  | nil => intro pend hne _; exact absurd rfl hne
  | cons c rest ih =>
    intro pend _ hlast
    cases rest with
    | nil =>
      have hc : p c = false := by simpa using hlast (by simp)
      unfold dropTrailGo
      rw [if_neg (by simp [hc])]
      rfl
    | cons d rest' =>
      have hlast' : ∀ hne : (d :: rest') ≠ [], p ((d :: rest').getLast hne) = false := by
        intro hne
        have h0 := hlast (by simp)
        rwa [List.getLast_cons hne] at h0
      unfold dropTrailGo
      by_cases hc : p c
      · rw [if_pos hc, ih (pend ++ [c]) (by simp) hlast']
        simp
      · rw [if_neg hc, ih [] (by simp) hlast']
        simp

theorem stripWith_id (p : Char → Bool) (s : List Char) (hs : s ≠ [])
    (hhead : ∀ hne : s ≠ [], p (s.head hne) = false)
    (hlast : ∀ hne : s ≠ [], p (s.getLast hne) = false) :
    stripWith p s = s := by
  unfold stripWith
  have hdw : s.dropWhile p = s := by
    cases s with
    | nil => rfl
    | cons c rest =>
      have := hhead (by simp)
      simp at this
      exact List.dropWhile_cons_of_neg (by simp [this])
  rw [hdw]
  rw [dropTrailGo_of_last_ne p s [] hs hlast]
  simp

theorem stripWith_id_of_ends (p : Char → Bool) (s : List Char) (hne : s ≠ [])
    (hh : p (s.head hne) = false) (hl : p (s.getLast hne) = false) :
    stripWith p s = s :=
  stripWith_id p s hne (fun _ => hh) (fun _ => hl)

theorem stripWith_id_of_none (p : Char → Bool) (s : List Char)
    (h : ∀ c ∈ s, p c = false) : stripWith p s = s := by
  cases s with
  | nil => rfl
  | cons c rest =>
    exact stripWith_id_of_ends p (c :: rest) (by simp)
      (h _ (List.head_mem (by simp))) (h _ (List.getLast_mem (by simp)))

theorem isPySpace_of_isBlank (c : Char) (h : isBlank c = true) : isPySpace c = true := by
  simp only [isBlank, Bool.or_eq_true, beq_iff_eq] at h
  rcases h with h | h <;> subst h <;> decide

theorem dropTrailGo_concat (p : Char → Bool) :
    ∀ (mid : List Char) (z : Char) (pend : List Char), p z = false →
      dropTrailGo p pend (mid ++ [z]) = pend ++ mid ++ [z] := by
  intro mid
  induction mid with
  | nil =>
    intro z pend hz
    show dropTrailGo p pend [z] = pend ++ [] ++ [z]
    unfold dropTrailGo
    rw [if_neg (by simp [hz])]
    simp [dropTrailGo]
  | cons c mid' ih =>
    intro z pend hz
    show dropTrailGo p pend (c :: (mid' ++ [z])) = _
    unfold dropTrailGo
    by_cases hc : p c
    · rw [if_pos hc, ih z (pend ++ [c]) hz]
      simp
    · rw [if_neg hc, ih z [] hz]
      simp

theorem stripWith_id_concat (p : Char → Bool) (a0 z : Char) (mid : List Char)
    (h0 : p a0 = false) (hz : p z = false) :
    stripWith p (a0 :: (mid ++ [z])) = a0 :: (mid ++ [z]) := by
  unfold stripWith
  rw [List.dropWhile_cons_of_neg (by simp [h0])]
  show dropTrailGo p [] ((a0 :: mid) ++ [z]) = _
  rw [dropTrailGo_concat p (a0 :: mid) z [] hz]
  simp

/-! ### Invariants of the preserve-mode pipeline -/

theorem isBlank_ne_nl (c : Char) (h : isBlank c = true) : c ≠ '\n' := by
  simp only [isBlank, Bool.or_eq_true, beq_iff_eq] at h
  rcases h with h | h <;> subst h <;> decide

theorem okTrail_tail (c : Char) (l : List Char) (h : okTrail (c :: l) = true) :
    okTrail l = true := by
  cases l with
  | nil => rfl
  | cons b r =>
    have : okTrail (c :: b :: r) = ((!(isBlank c && b == '\n')) && okTrail (b :: r)) := rfl
    rw [this] at h
    exact (Bool.and_eq_true_iff.mp h).2

theorem okTrail_cons (c : Char) (l : List Char) (hl : okTrail l = true)
    (hcl : ∀ d, l.head? = some d → isBlank c = false ∨ d ≠ '\n') :
    okTrail (c :: l) = true := by
  cases l with
  | nil => rfl
  | cons b r =>
    show ((!(isBlank c && b == '\n')) && okTrail (b :: r)) = true
    rw [Bool.and_eq_true_iff]
    refine ⟨?_, hl⟩
    rcases hcl b rfl with h | h
    · simp [h]
    · simp [beq_eq_false_iff_ne.mpr h]

theorem okTrail_cons_not_blank (c : Char) (l : List Char) (hc : isBlank c = false)
    (hl : okTrail l = true) : okTrail (c :: l) = true :=
  okTrail_cons c l hl (fun _ _ => Or.inl hc)

theorem okTrail_suffix (u : List Char) :
    ∀ v : List Char, okTrail (u ++ v) = true → okTrail v = true := by
  induction u with
  | nil => intro v h; exact h
  | cons c u' ih => intro v h; exact ih v (okTrail_tail c _ h)

theorem okTrail_prefix : ∀ (u v : List Char), okTrail (u ++ v) = true → okTrail u = true := by
  intro u
  induction u with
  | nil => intro v _; rfl
  | cons a u' ih =>
    intro v h
    cases u' with
    | nil => rfl
    | cons b u'' =>
      have h1 : okTrail ((a :: b :: u'') ++ v) =
          ((!(isBlank a && b == '\n')) && okTrail ((b :: u'') ++ v)) := rfl
      rw [h1, Bool.and_eq_true_iff] at h
      show ((!(isBlank a && b == '\n')) && okTrail (b :: u'')) = true
      rw [Bool.and_eq_true_iff]
      exact ⟨h.1, ih v h.2⟩

theorem okTrail_of_all_blank : ∀ l : List Char, (∀ x ∈ l, isBlank x = true) →
    okTrail l = true := by
  intro l
  induction l with
  | nil => intro _; rfl
  | cons c r ih =>
    intro h
    refine okTrail_cons c r (ih fun x hx => h x (List.mem_cons_of_mem c hx)) ?_
    intro d hd
    right
    have hdm : d ∈ r := by
      cases r with
      | nil => simp at hd
      | cons e r' => simp at hd; subst hd; exact List.mem_cons_self e r'
    exact isBlank_ne_nl d (h d (List.mem_cons_of_mem c hdm))

theorem okTrail_append_all_nl : ∀ (u v : List Char), (∀ x ∈ u, x = '\n') →
    okTrail v = true → okTrail (u ++ v) = true := by
  intro u
  induction u with
  | nil => intro v _ hv; exact hv
  | cons c u' ih =>
    intro v hu hv
    have hc : c = '\n' := hu c (List.mem_cons_self c u')
    refine okTrail_cons c _ (ih v (fun x hx => hu x (List.mem_cons_of_mem c hx)) hv) ?_
    intro d _
    left
    subst hc
    decide

theorem mem_dropTrailGo (p : Char → Bool) :
    ∀ (s pend : List Char) (c : Char), c ∈ dropTrailGo p pend s → c ∈ pend ∨ c ∈ s := by
  intro s
  induction s with
  | nil => intro pend c h; simp [dropTrailGo] at h
  | cons d rest ih =>
    intro pend c h
    unfold dropTrailGo at h
    by_cases hd : p d
    · rw [if_pos hd] at h
      rcases ih (pend ++ [d]) c h with h2 | h2
      · rcases List.mem_append.mp h2 with h3 | h3
        · exact Or.inl h3
        · exact Or.inr (by simp at h3; rw [h3]; exact List.mem_cons_self d rest)
      · exact Or.inr (List.mem_cons_of_mem d h2)
    · rw [if_neg hd] at h
      rcases List.mem_append.mp h with h2 | h2
      · exact Or.inl h2
      · rcases List.mem_cons.mp h2 with h3 | h3
        · exact Or.inr (by rw [h3]; exact List.mem_cons_self d rest)
        · rcases ih [] c h3 with h4 | h4
          · simp at h4
          · exact Or.inr (List.mem_cons_of_mem d h4)

theorem mem_stripWith (p : Char → Bool) (s : List Char) (c : Char)
    (h : c ∈ stripWith p s) : c ∈ s := by
  unfold stripWith at h
  rcases mem_dropTrailGo p _ [] c h with h2 | h2
  · simp at h2
  · exact (List.dropWhile_suffix p).subset h2

theorem mem_remTrailWSGo :
    ∀ (s pend : List Char) (c : Char), c ∈ remTrailWSGo pend s → c ∈ pend ∨ c ∈ s := by
  intro s
  induction s with
  | nil =>
    intro pend c h
    simp only [remTrailWSGo] at h
    exact Or.inl (List.mem_reverse.mp h)
  | cons d rest ih =>
    intro pend c h
    unfold remTrailWSGo at h
    by_cases hnl : d == '\n'
    · rw [if_pos hnl] at h
      rcases List.mem_cons.mp h with h2 | h2
      · subst h2
        exact Or.inr (by simp at hnl; subst hnl; exact List.mem_cons_self _ _)
      · rcases ih [] c h2 with h3 | h3
        · simp at h3
        · exact Or.inr (List.mem_cons_of_mem d h3)
    · rw [if_neg hnl] at h
      by_cases hb : isBlank d
      · rw [if_pos hb] at h
        rcases ih (d :: pend) c h with h2 | h2
        · rcases List.mem_cons.mp h2 with h3 | h3
          · exact Or.inr (by rw [h3]; exact List.mem_cons_self d rest)
          · exact Or.inl h3
        · exact Or.inr (List.mem_cons_of_mem d h2)
      · rw [if_neg hb] at h
        rcases List.mem_append.mp h with h2 | h2
        · exact Or.inl (List.mem_reverse.mp h2)
        · rcases List.mem_cons.mp h2 with h3 | h3
          · exact Or.inr (by rw [h3]; exact List.mem_cons_self d rest)
          · rcases ih [] c h3 with h4 | h4
            · simp at h4
            · exact Or.inr (List.mem_cons_of_mem d h4)

theorem mem_collapse3Go :
    ∀ (s : List Char) (k : Nat) (c : Char), c ∈ collapse3Go k s → c = '\n' ∨ c ∈ s := by
  intro s
  induction s with
  | nil =>
    intro k c h
    simp only [collapse3Go, emitNL] at h
    split at h <;> simp_all
  | cons d rest ih =>
    intro k c h
    unfold collapse3Go at h
    by_cases hnl : d == '\n'
    · rw [if_pos hnl] at h
      rcases ih (k + 1) c h with h2 | h2
      · exact Or.inl h2
      · exact Or.inr (List.mem_cons_of_mem d h2)
    · rw [if_neg hnl] at h
      rcases List.mem_append.mp h with h2 | h2
      · left
        simp only [emitNL] at h2
        by_cases h3k : 3 ≤ k
        · rw [if_pos h3k] at h2
          simpa using h2
        · rw [if_neg h3k] at h2
          exact List.eq_of_mem_replicate h2
      · rcases List.mem_cons.mp h2 with h3 | h3
        · exact Or.inr (by rw [h3]; exact List.mem_cons_self d rest)
        · rcases ih 0 c h3 with h4 | h4
          · exact Or.inl h4
          · exact Or.inr (List.mem_cons_of_mem d h4)

theorem noCR_pyReplaceCR :
    ∀ (s : List Char) (fuel : Nat), s.length ≤ fuel →
      '\r' ∉ pyReplaceF ['\r'] ['\n'] fuel s := by
  intro s
  induction s with
  | nil => intro fuel _ h; cases fuel <;> exact List.not_mem_nil _ h
  | cons c rest ih =>
    intro fuel hlen h
    cases fuel with
    | zero => simp at hlen
    | succ g =>
      by_cases hc : c = '\r'
      · subst hc
        rw [pyReplaceF_cons_pos ['\r'] ['\n'] g '\r' rest (by simp)
          (by simp [List.isPrefixOf])] at h
        rcases List.mem_append.mp h with h2 | h2
        · simp at h2
        · exact ih g (by simp at hlen; omega) h2
      · rw [pyReplaceF_cons_neg ['\r'] ['\n'] g c rest (by
          rintro ⟨-, hp⟩
          exact hc (List.cons_prefix_cons.mp (List.isPrefixOf_iff_prefix.mp hp)).1.symm)] at h
        rcases List.mem_cons.mp h with h2 | h2
        · exact hc h2.symm
        · exact ih g (by simp at hlen; omega) h2

theorem noCR_normalizeCRLF (s : List Char) : '\r' ∉ normalizeCRLF s := by
  unfold normalizeCRLF pyReplace
  exact noCR_pyReplaceCR _ _ le_rfl

theorem okTrail_append_blanks : ∀ (B : List Char), (∀ x ∈ B, isBlank x = true) →
    ∀ (c : Char) (X : List Char), c ≠ '\n' → okTrail (c :: X) = true →
    okTrail (B ++ c :: X) = true := by
  intro B
  induction B with
  | nil => intro _ c X _ h; exact h
  | cons b B' ih =>
    intro hB c X hc h
    refine okTrail_cons b _
      (ih (fun x hx => hB x (List.mem_cons_of_mem b hx)) c X hc h) ?_
    intro d hd
    right
    cases B' with
    | nil =>
      simp at hd
      rw [← hd]
      exact hc
    | cons b2 B'' =>
      simp at hd
      rw [← hd]
      exact isBlank_ne_nl b2 (hB b2 (by simp))

theorem okTrail_remTrailWSGo :
    ∀ (s pend : List Char), (∀ x ∈ pend, isBlank x = true) →
      okTrail (remTrailWSGo pend s) = true := by
  intro s
  induction s with
  | nil =>
    intro pend hp
    unfold remTrailWSGo
    exact okTrail_of_all_blank _ (fun x hx => hp x (List.mem_reverse.mp hx))
  | cons c rest ih =>
    intro pend hp
    unfold remTrailWSGo
    by_cases hnl : c == '\n'
    · rw [if_pos hnl]
      exact okTrail_cons_not_blank '\n' _ (by decide) (ih [] (by simp))
    · rw [if_neg hnl]
      by_cases hb : isBlank c
      · rw [if_pos hb]
        refine ih (c :: pend) ?_
        intro x hx
        rcases List.mem_cons.mp hx with h2 | h2
        · rw [h2]; exact hb
        · exact hp x h2
      · rw [if_neg hb]
        refine okTrail_append_blanks _ (fun x hx => hp x (List.mem_reverse.mp hx)) c _
          (by simpa using hnl) ?_
        exact okTrail_cons_not_blank c _ (by simpa using hb) (ih [] (by simp))

theorem okTrail_blanks_nl (r : List Char) : ∀ (B : List Char),
    (∀ x ∈ B, isBlank x = true) → okTrail (B ++ '\n' :: r) = true → B = [] := by
  intro B
  induction B with
  | nil => intro _ _; rfl
  | cons b B' ih =>
    intro hB h
    have hB' : B' = [] :=
      ih (fun x hx => hB x (List.mem_cons_of_mem b hx)) (okTrail_tail b _ h)
    subst hB'
    exfalso
    have hbb : isBlank b = true := hB b (by simp)
    simp only [List.cons_append, List.nil_append] at h
    have hx : okTrail (b :: '\n' :: r) = ((!(isBlank b && '\n' == '\n')) && okTrail ('\n' :: r)) := rfl
    rw [hx, hbb] at h
    simp at h

theorem remTrailWSGo_eq_self :
    ∀ (s pend : List Char), (∀ x ∈ pend, isBlank x = true) →
      okTrail (pend.reverse ++ s) = true → remTrailWSGo pend s = pend.reverse ++ s := by
  intro s
  induction s with
  | nil => intro pend _ _; simp [remTrailWSGo]
  | cons c rest ih =>
    intro pend hp hok
    unfold remTrailWSGo
    by_cases hnl : c == '\n'
    · rw [if_pos hnl]
      have hc : c = '\n' := by simpa using hnl
      subst hc
      have hpe : pend.reverse = [] :=
        okTrail_blanks_nl rest pend.reverse
          (fun x hx => hp x (List.mem_reverse.mp hx)) hok
      have hpe' : pend = [] := by simpa using hpe
      subst hpe'
      simp only [List.reverse_nil, List.nil_append] at hok ⊢
      rw [ih [] (by simp) (by simpa using okTrail_tail '\n' rest hok)]
      simp
    · rw [if_neg hnl]
      by_cases hb : isBlank c
      · rw [if_pos hb]
        have hshift : (c :: pend).reverse ++ rest = pend.reverse ++ c :: rest := by
          simp
        rw [ih (c :: pend) ?_ (by rw [hshift]; exact hok), hshift]
        intro x hx
        rcases List.mem_cons.mp hx with h2 | h2
        · rw [h2]; exact hb
        · exact hp x h2
      · rw [if_neg hb]
        rw [ih [] (by simp) ?_]
        · simp
        · simp only [List.reverse_nil, List.nil_append]
          exact okTrail_tail c rest (okTrail_suffix pend.reverse (c :: rest) hok)

theorem emitNL_all_nl (k : Nat) : ∀ x ∈ emitNL k, x = '\n' := by
  intro x hx
  unfold emitNL at hx
  by_cases h3 : 3 ≤ k
  · rw [if_pos h3] at hx; simpa using hx
  · rw [if_neg h3] at hx; exact List.eq_of_mem_replicate hx

theorem collapse3Go_head_nl (rest : List Char)
    (h : (collapse3Go 0 rest).head? = some '\n') : rest.head? = some '\n' := by
  cases rest with
  | nil => simp [collapse3Go, emitNL] at h
  | cons e r =>
    by_cases he : e == '\n'
    · simp at he
      rw [he]
      rfl
    · exfalso
      unfold collapse3Go at h
      rw [if_neg he] at h
      have hh : (emitNL 0 ++ e :: collapse3Go 0 r).head? = some e := rfl
      rw [hh] at h
      simp at h
      exact absurd h (by simpa using he)

theorem okTrail_first_pair (c : Char) (l : List Char) (hok : okTrail (c :: l) = true)
    (hl : l.head? = some '\n') : isBlank c = false := by
  cases l with
  | nil => simp at hl
  | cons b r =>
    have hb : b = '\n' := by simpa using hl
    subst hb
    have hx : okTrail (c :: '\n' :: r) = ((!(isBlank c && '\n' == '\n')) && okTrail ('\n' :: r)) := rfl
    rw [hx] at hok
    have := (Bool.and_eq_true_iff.mp hok).1
    simpa using this

theorem okTrail_collapse3Go :
    ∀ (s : List Char) (k : Nat), okTrail s = true → okTrail (collapse3Go k s) = true := by
  intro s
  induction s with
  | nil =>
    intro k _
    unfold collapse3Go
    have := okTrail_append_all_nl (emitNL k) [] (emitNL_all_nl k) rfl
    simpa using this
  | cons c rest ih =>
    intro k hok
    unfold collapse3Go
    by_cases hnl : c == '\n'
    · rw [if_pos hnl]
      exact ih (k + 1) (okTrail_tail c rest hok)
    · rw [if_neg hnl]
      refine okTrail_append_all_nl (emitNL k) _ (emitNL_all_nl k) ?_
      refine okTrail_cons c _ (ih 0 (okTrail_tail c rest hok)) ?_
      intro d hd
      by_cases hdn : d = '\n'
      · subst hdn
        left
        exact okTrail_first_pair c rest hok (collapse3Go_head_nl rest hd)
      · exact Or.inr hdn

theorem noTriple_tail (c : Char) (l : List Char) (h : noTriple (c :: l) = true) :
    noTriple l = true := by
  match l with
  | [] => rfl
  | [a] => rfl
  | a :: b :: r =>
    have hx : noTriple (c :: a :: b :: r) =
        ((!(c == '\n' && a == '\n' && b == '\n')) && noTriple (a :: b :: r)) := rfl
    rw [hx] at h
    exact (Bool.and_eq_true_iff.mp h).2

theorem noTriple_suffix (u : List Char) :
    ∀ v : List Char, noTriple (u ++ v) = true → noTriple v = true := by
  induction u with
  | nil => intro v h; exact h
  | cons c u' ih => intro v h; exact ih v (noTriple_tail c _ h)

theorem noTriple_cons_ne (c : Char) (l : List Char) (hc : c ≠ '\n')
    (hl : noTriple l = true) : noTriple (c :: l) = true := by
  match l with
  | [] => rfl
  | [a] => rfl
  | a :: b :: r =>
    show ((!(c == '\n' && a == '\n' && b == '\n')) && noTriple (a :: b :: r)) = true
    rw [Bool.and_eq_true_iff]
    exact ⟨by simp [beq_eq_false_iff_ne.mpr hc], hl⟩

theorem noTriple_nl_cons (c : Char) (l : List Char) (hc : c ≠ '\n')
    (hl : noTriple (c :: l) = true) : noTriple ('\n' :: c :: l) = true := by
  match l with
  | [] => rfl
  | a :: r =>
    show ((!('\n' == '\n' && c == '\n' && a == '\n')) && noTriple (c :: a :: r)) = true
    rw [Bool.and_eq_true_iff]
    exact ⟨by simp [beq_eq_false_iff_ne.mpr hc], hl⟩

theorem noTriple_nl_nl_cons (c : Char) (l : List Char) (hc : c ≠ '\n')
    (hl : noTriple (c :: l) = true) : noTriple ('\n' :: '\n' :: c :: l) = true := by
  show ((!('\n' == '\n' && '\n' == '\n' && c == '\n')) && noTriple ('\n' :: c :: l)) = true
  rw [Bool.and_eq_true_iff]
  exact ⟨by simp [beq_eq_false_iff_ne.mpr hc], noTriple_nl_cons c l hc hl⟩

theorem noTriple_collapse3Go :
    ∀ (s : List Char) (k : Nat), noTriple (collapse3Go k s) = true := by
  intro s
  induction s with
  | nil =>
    intro k
    unfold collapse3Go emitNL
    by_cases h3 : 3 ≤ k
    · rw [if_pos h3]; rfl
    · rw [if_neg h3]
      match k, h3 with
      | 0, _ => rfl
      | 1, _ => rfl
      | 2, _ => rfl
      | n + 3, h3 => exact absurd (by omega : 3 ≤ n + 3) h3
  | cons c rest ih =>
    intro k
    unfold collapse3Go
    by_cases hnl : c == '\n'
    · rw [if_pos hnl]
      exact ih (k + 1)
    · rw [if_neg hnl]
      have hc : c ≠ '\n' := by simpa using hnl
      have hbase : noTriple (c :: collapse3Go 0 rest) = true :=
        noTriple_cons_ne c _ hc (ih 0)
      unfold emitNL
      by_cases h3 : 3 ≤ k
      · rw [if_pos h3]
        exact noTriple_nl_nl_cons c _ hc hbase
      · rw [if_neg h3]
        match k, h3 with
        | 0, _ => exact hbase
        | 1, _ => exact noTriple_nl_cons c _ hc hbase
        | 2, _ => exact noTriple_nl_nl_cons c _ hc hbase
        | n + 3, h3 => exact absurd (by omega : 3 ≤ n + 3) h3

theorem noTriple_replicate_le (k : Nat) (s : List Char)
    (h : noTriple (List.replicate k '\n' ++ s) = true) : k ≤ 2 := by
  by_contra hk
  push_neg at hk
  match k, hk with
  | n + 3, _ =>
    have hx : List.replicate (n + 3) '\n' ++ s =
        '\n' :: '\n' :: '\n' :: (List.replicate n '\n' ++ s) := by
      simp [List.replicate_succ]
    rw [hx] at h
    have hy : noTriple ('\n' :: '\n' :: '\n' :: (List.replicate n '\n' ++ s)) =
        ((!('\n' == '\n' && '\n' == '\n' && '\n' == '\n')) &&
          noTriple ('\n' :: '\n' :: (List.replicate n '\n' ++ s))) := rfl
    rw [hy] at h
    simp at h

theorem collapse3Go_eq_self :
    ∀ (s : List Char) (k : Nat), noTriple (List.replicate k '\n' ++ s) = true →
      collapse3Go k s = List.replicate k '\n' ++ s := by
  intro s
  induction s with
  | nil =>
    intro k h
    have hk : k ≤ 2 := noTriple_replicate_le k [] h
    unfold collapse3Go emitNL
    rw [if_neg (by omega)]
    simp
  | cons c rest ih =>
    intro k h
    unfold collapse3Go
    by_cases hnl : c == '\n'
    · rw [if_pos hnl]
      have hc : c = '\n' := by simpa using hnl
      subst hc
      have hshift : List.replicate k '\n' ++ '\n' :: rest =
          List.replicate (k + 1) '\n' ++ rest := by
        rw [List.replicate_succ']
        simp
      rw [hshift] at h
      rw [ih (k + 1) h, hshift]
    · rw [if_neg hnl]
      have hk : k ≤ 2 := noTriple_replicate_le k (c :: rest) h
      have hrest : noTriple rest = true :=
        noTriple_tail c rest (noTriple_suffix (List.replicate k '\n') (c :: rest) h)
      have hrest0 : noTriple (List.replicate 0 '\n' ++ rest) = true := by simpa using hrest
      rw [ih 0 hrest0]
      unfold emitNL
      rw [if_neg (by omega)]
      simp

theorem dropWhile_head_false (p : Char → Bool) :
    ∀ (l : List Char) (c : Char) (r : List Char), l.dropWhile p = c :: r → p c = false := by
  intro l
  induction l with
  | nil => intro c r h; simp at h
  | cons d l' ih =>
    intro c r h
    by_cases hd : p d
    · rw [List.dropWhile_cons_of_pos hd] at h
      exact ih c r h
    · rw [List.dropWhile_cons_of_neg hd] at h
      injection h with h1 _
      rw [← h1]
      simpa using hd

theorem dropTrail_last (p : Char → Bool) :
    ∀ (w pend : List Char), dropTrailGo p pend w = [] ∨
      ∃ u c, dropTrailGo p pend w = u ++ [c] ∧ p c = false := by
  intro w
  induction w with
  | nil => intro pend; left; rfl
  | cons d rest ih =>
    intro pend
    unfold dropTrailGo
    by_cases hd : p d
    · rw [if_pos hd]
      exact ih (pend ++ [d])
    · rw [if_neg hd]
      rcases ih [] with h | ⟨u, c, h, hc⟩
      · right
        refine ⟨pend, d, ?_, by simpa using hd⟩
        rw [h]
      · right
        refine ⟨pend ++ d :: u, c, ?_, hc⟩
        rw [h]
        simp

theorem dropTrailGo_prefix (p : Char → Bool) :
    ∀ (w pend : List Char), ∃ u, pend ++ w = dropTrailGo p pend w ++ u := by
  intro w
  induction w with
  | nil => intro pend; exact ⟨pend, by simp [dropTrailGo]⟩
  | cons d rest ih =>
    intro pend
    unfold dropTrailGo
    by_cases hd : p d
    · rw [if_pos hd]
      obtain ⟨u, hu⟩ := ih (pend ++ [d])
      exact ⟨u, by simpa using hu⟩
    · rw [if_neg hd]
      obtain ⟨u, hu⟩ := ih []
      simp only [List.nil_append] at hu
      refine ⟨u, ?_⟩
      conv_lhs => rw [hu]
      simp

theorem dropTrailGo_cons_neg (p : Char → Bool) (pend : List Char) (d : Char)
    (rest : List Char) (hd : p d = false) :
    dropTrailGo p pend (d :: rest) = pend ++ d :: dropTrailGo p [] rest := by
  simp only [dropTrailGo]
  rw [if_neg (by simp [hd])]

theorem stripWith_idem (p : Char → Bool) (s : List Char) :
    stripWith p (stripWith p s) = stripWith p s := by
  cases hw : s.dropWhile p with
  | nil =>
    have h1 : stripWith p s = [] := by
      unfold stripWith
      rw [hw]
      rfl
    rw [h1]
    rfl
  | cons d w' =>
    have hd : p d = false := dropWhile_head_false p s d w' hw
    have h1 : stripWith p s = d :: dropTrailGo p [] w' := by
      unfold stripWith
      rw [hw, dropTrailGo_cons_neg p [] d w' hd]
      simp
    rcases dropTrail_last p (d :: w') [] with h2 | ⟨u, c, h2, hc⟩
    · exfalso
      have h3 : stripWith p s = [] := by
        unfold stripWith
        rw [hw]
        exact h2
      rw [h1] at h3
      simp at h3
    · have h3 : stripWith p s = u ++ [c] := by
        unfold stripWith
        rw [hw]
        exact h2
      rw [h3]
      cases u with
      | nil =>
        simp only [List.nil_append]
        unfold stripWith
        rw [List.dropWhile_cons_of_neg (by simp [hc])]
        show dropTrailGo p [] ([] ++ [c]) = [c]
        rw [dropTrailGo_concat p [] c [] hc]
        simp
      | cons d' u' =>
        have hd' : p d' = false := by
          have hx := h1.symm.trans h3
          simp only [List.cons_append] at hx
          injection hx with hx1 _
          rw [← hx1]
          exact hd
        show stripWith p (d' :: (u' ++ [c])) = _
        unfold stripWith
        rw [List.dropWhile_cons_of_neg (by simp [hd'])]
        show dropTrailGo p [] ((d' :: u') ++ [c]) = (d' :: u') ++ [c]
        rw [dropTrailGo_concat p (d' :: u') c [] hc]
        simp

theorem stripList_idem (s : List Char) : stripList (stripList s) = stripList s :=
  stripWith_idem isPySpace s

theorem noTriple_prefix : ∀ (u v : List Char), noTriple (u ++ v) = true →
    noTriple u = true := by
  intro u
  induction u with
  | nil => intro v _; rfl
  | cons a u' ih =>
    intro v h
    match u', ih with
    | [], _ => rfl
    | [b], _ => rfl
    | b :: c :: u'', ih =>
      have hx : noTriple ((a :: b :: c :: u'') ++ v) =
          ((!(a == '\n' && b == '\n' && c == '\n')) && noTriple ((b :: c :: u'') ++ v)) := rfl
      rw [hx, Bool.and_eq_true_iff] at h
      show ((!(a == '\n' && b == '\n' && c == '\n')) && noTriple (b :: c :: u'')) = true
      rw [Bool.and_eq_true_iff]
      exact ⟨h.1, ih v h.2⟩

theorem okTrail_stripWith (p : Char → Bool) (z : List Char)
    (h : okTrail z = true) : okTrail (stripWith p z) = true := by
  have h1 : okTrail (z.dropWhile p) = true := by
    obtain ⟨t, ht⟩ := List.dropWhile_suffix p (l := z)
    exact okTrail_suffix t _ (by rw [ht]; exact h)
  obtain ⟨u2, hu2⟩ := dropTrailGo_prefix p (z.dropWhile p) []
  simp only [List.nil_append] at hu2
  refine okTrail_prefix _ u2 ?_
  show okTrail (dropTrailGo p [] (z.dropWhile p) ++ u2) = true
  rw [← hu2]
  exact h1

theorem noTriple_stripWith (p : Char → Bool) (z : List Char)
    (h : noTriple z = true) : noTriple (stripWith p z) = true := by
  have h1 : noTriple (z.dropWhile p) = true := by
    obtain ⟨t, ht⟩ := List.dropWhile_suffix p (l := z)
    exact noTriple_suffix t _ (by rw [ht]; exact h)
  obtain ⟨u2, hu2⟩ := dropTrailGo_prefix p (z.dropWhile p) []
  simp only [List.nil_append] at hu2
  refine noTriple_prefix _ u2 ?_
  show noTriple (dropTrailGo p [] (z.dropWhile p) ++ u2) = true
  rw [← hu2]
  exact h1

theorem mem_remTrailWS (s : List Char) (c : Char) (h : c ∈ remTrailWS s) : c ∈ s := by
  rcases mem_remTrailWSGo s [] c h with h2 | h2
  · simp at h2
  · exact h2

theorem mem_collapse3 (s : List Char) (c : Char) (h : c ∈ collapse3 s) :
    c = '\n' ∨ c ∈ s :=
  mem_collapse3Go s 0 c h

theorem normalizeCRLF_id_of_noCR (s : List Char) (h : '\r' ∉ s) :
    normalizeCRLF s = s := by
  unfold normalizeCRLF
  rw [pyReplace_id_of_head_notMem '\r' ['\n'] ['\n'] s h]
  exact pyReplace_id_of_head_notMem '\r' [] ['\n'] s h

theorem remTrailWS_eq_self (s : List Char) (h : okTrail s = true) :
    remTrailWS s = s := by
  unfold remTrailWS
  rw [remTrailWSGo_eq_self s [] (by simp) (by simpa using h)]
  simp

theorem collapse3_eq_self (s : List Char) (h : noTriple s = true) :
    collapse3 s = s := by
  unfold collapse3
  rw [collapse3Go_eq_self s 0 (by simpa using h)]
  simp

theorem postprocess_preserve (t : List Char) :
    postprocess_text t true =
      if t = [] then [] else stripList (collapse3 (remTrailWS (normalizeCRLF t))) := by
  unfold postprocess_text
  by_cases h : t = []
  · rw [if_pos h, if_pos h]
  · rw [if_neg h, if_neg h]
    rfl

/-! ### Splitting lemmas for the preserve-mode pipeline (C8) -/

theorem pyReplaceF_fuel (pat repl : List Char) :
    ∀ (f1 : Nat) (s : List Char) (f2 : Nat), s.length ≤ f1 → s.length ≤ f2 →
      pyReplaceF pat repl f1 s = pyReplaceF pat repl f2 s := by
  intro f1
  induction f1 with
  | zero =>
    intro s f2 h1 _
    have hs : s = [] := by
      cases s with
      | nil => rfl
      | cons c r => simp at h1
    subst hs
    cases f2 <;> rfl
  | succ g1 ih =>
    intro s f2 h1 h2
    cases s with
    | nil => cases f2 <;> rfl
    | cons c rest =>
      cases f2 with
      | zero => simp at h2
      | succ g2 =>
        by_cases hcond : pat ≠ [] ∧ pat.isPrefixOf (c :: rest) = true
        · rw [pyReplaceF_cons_pos pat repl g1 c rest hcond.1 hcond.2,
            pyReplaceF_cons_pos pat repl g2 c rest hcond.1 hcond.2]
          have hplen : 1 ≤ pat.length := by
            cases pat with
            | nil => exact absurd rfl hcond.1
            | cons p ps => simp
          have hdlen : ((c :: rest).drop pat.length).length ≤ g1 := by
            simp only [List.length_drop, List.length_cons]
            simp only [List.length_cons] at h1
            omega
          have hdlen2 : ((c :: rest).drop pat.length).length ≤ g2 := by
            simp only [List.length_drop, List.length_cons]
            simp only [List.length_cons] at h2
            omega
          rw [ih _ g2 hdlen hdlen2]
        · rw [pyReplaceF_cons_neg pat repl g1 c rest hcond,
            pyReplaceF_cons_neg pat repl g2 c rest hcond]
          have hr1 : rest.length ≤ g1 := by simp at h1; omega
          have hr2 : rest.length ≤ g2 := by simp at h2; omega
          rw [ih rest g2 hr1 hr2]

theorem pyReplaceF_nil (pat repl : List Char) (fuel : Nat) :
    pyReplaceF pat repl fuel [] = [] := by
  cases fuel <;> rfl

theorem okTrail_of_no_blank :
    ∀ s : List Char, (∀ c ∈ s, isBlank c = false) → okTrail s = true := by
  intro s
  induction s with
  | nil => intro _; rfl
  | cons a rest ih =>
    intro h
    cases rest with
    | nil => rfl
    | cons b rest2 =>
      unfold okTrail
      rw [h a (by simp)]
      simp only [Bool.false_and, Bool.not_false, Bool.true_and]
      exact ih fun c hc => h c (List.mem_cons_of_mem a hc)

theorem collapse3Go_cons (k : Nat) (c : Char) (rest : List Char) :
    collapse3Go k (c :: rest) =
      if c == '\n' then collapse3Go (k + 1) rest
      else emitNL k ++ c :: collapse3Go 0 rest := rfl

theorem collapse3Go_append_no_nl :
    ∀ (a rest : List Char), (∀ c ∈ a, c ≠ '\n') →
      collapse3Go 0 (a ++ rest) = a ++ collapse3Go 0 rest := by
  intro a
  induction a with
  | nil => intro rest _; rfl
  | cons c a2 ih =>
    intro rest h
    have hc : c ≠ '\n' := h c (by simp)
    show collapse3Go 0 (c :: (a2 ++ rest)) = _
    rw [collapse3Go_cons, if_neg (by simpa using hc),
      ih rest fun x hx => h x (List.mem_cons_of_mem c hx)]
    rfl

theorem emitNL_ge2 (k : Nat) (hk : 2 ≤ k) : emitNL k = ['\n', '\n'] := by
  unfold emitNL
  by_cases h3 : 3 ≤ k
  · rw [if_pos h3]
  · rw [if_neg h3]
    have : k = 2 := by omega
    rw [this]
    rfl

theorem collapse3Go_run (k : Nat) (b : List Char) (hk : 2 ≤ k) (hb : b ≠ [])
    (hnl : '\n' ∉ b) : collapse3Go k b = '\n' :: '\n' :: b := by
  cases b with
  | nil => exact absurd rfl hb
  | cons c b2 =>
    have hc : ¬ (c == '\n') = true := by
      simp only [beq_iff_eq]
      intro h
      subst h
      exact hnl (List.mem_cons_self _ _)
    rw [collapse3Go_cons, if_neg hc, emitNL_ge2 k hk,
      collapse3Go_id_of_no_nl b2 fun h => hnl (List.mem_cons_of_mem c h)]
    rfl

theorem stripWith_id_of_opt (p : Char → Bool) (s : List Char) (hs : s ≠ [])
    (hh : ∀ x, s.head? = some x → p x = false)
    (hl : ∀ x, s.getLast? = some x → p x = false) :
    stripWith p s = s :=
  stripWith_id p s hs (fun hne => hh _ (List.head?_eq_head hne))
    (fun hne => hl _ (List.getLast?_eq_getLast s hne))

theorem placeholder_aperiodic :
    ∀ m, 1 ≤ m → m < 7 → placeholder.drop m ≠ placeholder.take (7 - m) := by decide

theorem isPrefixOf_append_of_le (p s y : List Char) (h : p.length ≤ s.length) :
    p.isPrefixOf (s ++ y) = p.isPrefixOf s := by
  have hiff : p <+: (s ++ y) ↔ p <+: s := by
    rw [List.prefix_iff_eq_take, List.prefix_iff_eq_take, List.take_append_eq_append_take]
    have h0 : p.length - s.length = 0 := by omega
    rw [h0]
    simp
  cases hps : p.isPrefixOf s with
  | true => exact List.isPrefixOf_iff_prefix.mpr (hiff.mpr (List.isPrefixOf_iff_prefix.mp hps))
  | false =>
    cases hpsy : p.isPrefixOf (s ++ y) with
    | false => rfl
    | true =>
      exfalso
      have h2 := List.isPrefixOf_iff_prefix.mpr (hiff.mp (List.isPrefixOf_iff_prefix.mp hpsy))
      rw [hps] at h2
      exact Bool.false_ne_true h2

theorem placeholder_no_cross (s T : List Char) (hs1 : 1 ≤ s.length)
    (hs7 : s.length < 7) :
    placeholder.isPrefixOf (s ++ placeholder ++ T) = false := by
  cases hp : placeholder.isPrefixOf (s ++ placeholder ++ T) with
  | false => rfl
  | true =>
    exfalso
    have hpre : placeholder <+: s ++ placeholder ++ T := List.isPrefixOf_iff_prefix.mp hp
    have htake : placeholder = (s ++ placeholder ++ T).take 7 :=
      List.prefix_iff_eq_take.mp hpre
    rw [List.append_assoc, List.take_append_eq_append_take,
      List.take_of_length_le (by omega)] at htake
    have ht2 : (placeholder ++ T).take (7 - s.length) = placeholder.take (7 - s.length) := by
      rw [List.take_append_eq_append_take]
      have h0 : 7 - s.length - placeholder.length = 0 := by
        rw [show placeholder.length = 7 from rfl]
        omega
      rw [h0]
      simp
    rw [ht2] at htake
    have hdrop := congrArg (List.drop s.length) htake
    rw [List.drop_left] at hdrop
    exact placeholder_aperiodic s.length hs1 hs7 hdrop

theorem placeholderFree_iff (x : List Char) :
    placeholderFree x = true ↔
      ∀ i < x.length, placeholder.isPrefixOf (x.drop i) = false := by
  unfold placeholderFree
  rw [List.all_eq_true]
  constructor
  · intro h i hi
    simpa using h i (List.mem_range.mpr hi)
  · intro h i hi
    simpa using h i (List.mem_range.mp hi)

theorem placeholderFree_all (x : List Char) (h : placeholderFree x = true) :
    ∀ i, placeholder.isPrefixOf (x.drop i) = false := by
  intro i
  by_cases hi : i < x.length
  · exact (placeholderFree_iff x).mp h i hi
  · rw [List.drop_eq_nil_of_le (by omega)]
    rfl

theorem placeholderFree_tail (c : Char) (x : List Char)
    (h : placeholderFree (c :: x) = true) : placeholderFree x = true := by
  rw [placeholderFree_iff]
  intro i hi
  have h2 := placeholderFree_all (c :: x) h (i + 1)
  simpa using h2

theorem pyReplaceF_id_of_free (R : List Char) :
    ∀ (fuel : Nat) (x : List Char), placeholderFree x = true →
      pyReplaceF placeholder R fuel x = x := by
  intro fuel
  induction fuel with
  | zero => intro x _; cases x <;> rfl
  | succ g ih =>
    intro x hx
    cases x with
    | nil => rfl
    | cons c rest =>
      rw [pyReplaceF_cons_neg placeholder R g c rest ?hng]
      · rw [ih rest (placeholderFree_tail c rest hx)]
      case hng =>
        rintro ⟨-, hp⟩
        have h0 := placeholderFree_all (c :: rest) hx 0
        rw [List.drop_zero] at h0
        rw [h0] at hp
        exact Bool.false_ne_true hp

theorem pyReplaceF_free_seg (R : List Char) :
    ∀ (x : List Char) (fuel : Nat) (T : List Char),
      (x ++ placeholder ++ T).length ≤ fuel → placeholderFree x = true →
      pyReplaceF placeholder R fuel (x ++ placeholder ++ T)
        = x ++ R ++ pyReplaceF placeholder R fuel T := by
  intro x
  induction x with
  | nil =>
    intro fuel T hfuel _
    cases fuel with
    | zero =>
      exfalso
      simp [List.length_append] at hfuel
      exact absurd hfuel.1 (by decide)
    | succ g =>
      have h7 : placeholder.length = 7 := rfl
      have hT : T.length ≤ g := by
        simp [List.length_append, h7] at hfuel
        omega
      show pyReplaceF placeholder R (g + 1) ('<' :: ("<<P>>>".data ++ T)) = _
      rw [pyReplaceF_cons_pos placeholder R g '<' ("<<P>>>".data ++ T) (by decide)
        (List.isPrefixOf_iff_prefix.mpr (List.prefix_append placeholder T))]
      rw [show (('<' :: ("<<P>>>".data ++ T)).drop placeholder.length) = T from
        List.drop_left placeholder T]
      rw [pyReplaceF_fuel placeholder R g T (g + 1) hT (by omega)]
      simp
  | cons c x2 ih =>
    intro fuel T hfuel hfree
    cases fuel with
    | zero =>
      exfalso
      simp [List.length_append] at hfuel
    | succ g =>
      have h7 : placeholder.length = 7 := rfl
      have hlen2 : (x2 ++ placeholder ++ T).length ≤ g := by
        simp [List.length_append] at hfuel ⊢
        omega
      have hT : T.length ≤ g := by
        simp [List.length_append, h7] at hfuel
        omega
      show pyReplaceF placeholder R (g + 1) (c :: (x2 ++ placeholder ++ T)) = _
      rw [pyReplaceF_cons_neg placeholder R g c (x2 ++ placeholder ++ T) ?hng]
      · rw [ih g T hlen2 (placeholderFree_tail c x2 hfree)]
        rw [pyReplaceF_fuel placeholder R g T (g + 1) hT (by omega)]
        simp
      case hng =>
        rintro ⟨-, hp⟩
        have hshape : c :: (x2 ++ placeholder ++ T) = (c :: x2) ++ placeholder ++ T := by
          simp
        rw [hshape] at hp
        by_cases hlen7 : 7 ≤ (c :: x2).length
        · rw [List.append_assoc,
            isPrefixOf_append_of_le placeholder (c :: x2) (placeholder ++ T)
              (by rw [show placeholder.length = 7 from rfl]; omega)] at hp
          have h0 := placeholderFree_all (c :: x2) hfree 0
          rw [List.drop_zero] at h0
          rw [h0] at hp
          exact Bool.false_ne_true hp
        · rw [placeholder_no_cross (c :: x2) T (by simp) (by omega)] at hp
          exact Bool.false_ne_true hp

theorem sepBy_replace (R : List Char) :
    ∀ (xs : List (List Char)) (fuel : Nat), (sepBy placeholder xs).length ≤ fuel →
      (∀ x ∈ xs, placeholderFree x = true) →
      pyReplaceF placeholder R fuel (sepBy placeholder xs) = sepBy R xs := by
  intro xs
  induction xs with
  | nil => intro fuel _ _; exact pyReplaceF_nil placeholder R fuel
  | cons x rest ih =>
    intro fuel hfuel hfree
    cases rest with
    | nil => exact pyReplaceF_id_of_free R fuel x (hfree x (by simp))
    | cons y rest2 =>
      show pyReplaceF placeholder R fuel (x ++ placeholder ++ sepBy placeholder (y :: rest2)) = _
      rw [pyReplaceF_free_seg R x fuel (sepBy placeholder (y :: rest2))
        (by simpa [sepBy] using hfuel) (hfree x (by simp))]
      rw [ih fuel (by simp [sepBy, List.length_append] at hfuel ⊢; omega)
        (fun z hz => hfree z (List.mem_cons_of_mem x hz))]
      rfl

theorem pyReplace_sepBy (R : List Char) (xs : List (List Char))
    (hfree : ∀ x ∈ xs, placeholderFree x = true) :
    pyReplace placeholder R (sepBy placeholder xs) = sepBy R xs := by
  unfold pyReplace
  exact sepBy_replace R xs _ le_rfl hfree

theorem mem_sepBy (sep : List Char) :
    ∀ (xs : List (List Char)) (c : Char), c ∈ sepBy sep xs →
      c ∈ sep ∨ ∃ x ∈ xs, c ∈ x := by
  intro xs
  induction xs with
  | nil => intro c hc; exact absurd hc (List.not_mem_nil c)
  | cons x rest ih =>
    intro c hc
    cases rest with
    | nil => exact Or.inr ⟨x, by simp, hc⟩
    | cons y rest2 =>
      have hc2 : c ∈ x ++ sep ++ sepBy sep (y :: rest2) := hc
      rcases List.mem_append.mp hc2 with h | h
      · rcases List.mem_append.mp h with h2 | h2
        · exact Or.inr ⟨x, by simp, h2⟩
        · exact Or.inl h2
      · rcases ih c h with h2 | ⟨z, hz, hcz⟩
        · exact Or.inl h2
        · exact Or.inr ⟨z, List.mem_cons_of_mem x hz, hcz⟩

theorem sepBy_head (sep : List Char) (x : Char) (xt : List Char)
    (xs : List (List Char)) :
    ∃ L, sepBy sep ((x :: xt) :: xs) = x :: L := by
  cases xs with
  | nil => exact ⟨xt, rfl⟩
  | cons y rest => exact ⟨xt ++ sep ++ sepBy sep (y :: rest), by simp [sepBy]⟩

theorem sepBy_ne_nil (sep : List Char) (xs : List (List Char)) (hxs : xs ≠ [])
    (hne : ∀ x ∈ xs, x ≠ []) : sepBy sep xs ≠ [] := by
  cases xs with
  | nil => exact absurd rfl hxs
  | cons x rest =>
    cases hx : x with
    | nil => exact absurd hx (hne x (by simp))
    | cons c xt =>
      subst hx
      obtain ⟨L, hL⟩ := sepBy_head sep c xt rest
      rw [hL]
      simp

theorem sepBy_getLast? (sep : List Char) :
    ∀ (xs : List (List Char)) (x : List Char), xs ≠ [] → (∀ z ∈ xs, z ≠ []) →
      xs.getLast? = some x → (sepBy sep xs).getLast? = x.getLast? := by
  intro xs
  induction xs with
  | nil => intro x h; exact absurd rfl h
  | cons y rest ih =>
    intro x _ hne hlast
    cases rest with
    | nil =>
      have hx : y = x := by simpa using hlast
      subst hx
      rfl
    | cons z rest2 =>
      have hlast2 : (z :: rest2).getLast? = some x := by
        rw [← show (y :: z :: rest2).getLast? = (z :: rest2).getLast? from
          List.getLast?_cons_cons]
        exact hlast
      have hrec := ih x (by simp) (fun w hw => hne w (List.mem_cons_of_mem y hw)) hlast2
      show ((y ++ sep) ++ sepBy sep (z :: rest2)).getLast? = x.getLast?
      rw [List.getLast?_append_of_ne_nil (y ++ sep)
        (sepBy_ne_nil sep (z :: rest2) (by simp)
          (fun w hw => hne w (List.mem_cons_of_mem y hw)))]
      exact hrec

theorem noTriple_append_no_nl :
    ∀ (x t : List Char), '\n' ∉ x → noTriple t = true → noTriple (x ++ t) = true := by
  intro x
  induction x with
  | nil => intro t _ ht; exact ht
  | cons c x2 ih =>
    intro t hx ht
    have hc : c ≠ '\n' := fun h => hx (by rw [h]; exact List.mem_cons_self _ _)
    exact noTriple_cons_ne c (x2 ++ t) hc
      (ih t (fun h => hx (List.mem_cons_of_mem c h)) ht)

theorem noTriple_sepBy :
    ∀ (xs : List (List Char)), (∀ x ∈ xs, x ≠ [] ∧ '\n' ∉ x) →
      noTriple (sepBy ['\n', '\n'] xs) = true := by
  intro xs
  induction xs with
  | nil => intro _; rfl
  | cons x rest ih =>
    intro h
    cases rest with
    | nil =>
      have hx := h x (by simp)
      have h2 := noTriple_append_no_nl x [] hx.2 rfl
      simpa using h2
    | cons y rest2 =>
      have hrec := ih fun z hz => h z (List.mem_cons_of_mem x hz)
      have hy := h y (by simp)
      obtain ⟨c, yt, hyeq⟩ : ∃ c yt, y = c :: yt := by
        cases y with
        | nil => exact absurd rfl hy.1
        | cons c yt => exact ⟨c, yt, rfl⟩
      have hcn : c ≠ '\n' := fun hq => hy.2 (by rw [hyeq, hq]; exact List.mem_cons_self _ _)
      obtain ⟨L, hL⟩ := sepBy_head ['\n', '\n'] c yt rest2
      rw [hyeq] at hrec
      have hmid : noTriple ('\n' :: '\n' :: sepBy ['\n', '\n'] ((c :: yt) :: rest2)) = true := by
        rw [hL]
        rw [hL] at hrec
        exact noTriple_nl_nl_cons c L hcn hrec
      have hx := h x (by simp)
      have hfin := noTriple_append_no_nl x ('\n' :: '\n' :: sepBy ['\n', '\n'] ((c :: yt) :: rest2))
        hx.2 hmid
      show noTriple (x ++ ['\n', '\n'] ++ sepBy ['\n', '\n'] (y :: rest2)) = true
      rw [hyeq, List.append_assoc]
      exact hfin

/-! ## Claim theorems: extraction pipeline -/

/-- **C3.** For every modelled byte-stream environment, `extract_text_from_pdf`
and `extract_text_from_image` deliver a string to the caller: when the
pipeline body raises internally (`.error e`), the result is the descriptive
error string built from `e`; otherwise it is the pipeline's string.  Totality
of both functions is by construction. -/
theorem claim_C3_never_raises (penv : PdfEnv) (ienv : ImgEnv) (p : Bool) :
    ((∃ e, pdfPipeline penv p = .error e ∧
        extract_text_from_pdf penv p = "Error extracting PDF text: ".data ++ e.data) ∨
     (∃ s, pdfPipeline penv p = .ok s ∧ extract_text_from_pdf penv p = s)) ∧
    ((∃ e, imgPipeline ienv p = .error e ∧
        extract_text_from_image ienv p = "Error extracting image text: ".data ++ e.data) ∨
     (∃ s, imgPipeline ienv p = .ok s ∧ extract_text_from_image ienv p = s)) := by
  constructor
  · cases h : pdfPipeline penv p with
    | ok s => exact Or.inr ⟨s, rfl, by unfold extract_text_from_pdf; rw [h]⟩
    | error e => exact Or.inl ⟨e, rfl, by unfold extract_text_from_pdf; rw [h]⟩
  · cases h : imgPipeline ienv p with
    | ok s => exact Or.inr ⟨s, rfl, by unfold extract_text_from_image; rw [h]⟩
    | error e => exact Or.inl ⟨e, rfl, by unfold extract_text_from_image; rw [h]⟩

/-- **C2.** When pdfplumber's normalized result has length ≤ 10 it is not
returned: the function's value is that of the pipeline resumed at pdfminer;
and when pdfminer's normalized result also has length ≤ 10 the pipeline
resumes at OCR.  (A result is returned at step 1 or 2 only under the strict
`len > 10` guard of the code.) -/
theorem claim_C2_threshold_fallback (env : PdfEnv) (p : Bool) (pages : List (List Char))
    (hr : env.readOk = .ok ())
    (hp : env.plumberPages = .ok pages)
    (hA : (extract_with_pdfplumber pages p).length ≤ 10) :
    (extract_text_from_pdf env p =
      match pdfPipelineFromMiner env p with
      | .ok s => s
      | .error e => "Error extracting PDF text: ".data ++ e.data) ∧
    (∀ raw, env.minerText = .ok raw → (extract_with_pdfminer raw p).length ≤ 10 →
      pdfPipelineFromMiner env p = pdfPipelineFromOcr env p) := by
  constructor
  · have hcond : ¬(extract_with_pdfplumber pages p ≠ [] ∧
        10 < (extract_with_pdfplumber pages p).length) := by
      rintro ⟨-, h⟩; omega
    unfold extract_text_from_pdf pdfPipeline pdfPipelineFromMiner
    rw [hr, hp]
    simp only [hcond, if_false]
  · intro raw hm hB
    have hcond : ¬(extract_with_pdfminer raw p ≠ [] ∧
        10 < (extract_with_pdfminer raw p).length) := by
      rintro ⟨-, h⟩; omega
    unfold pdfPipelineFromMiner pdfPipelineFromOcr
    rw [hm]
    simp only [hcond, if_false]

/-- **C6.** When pdfplumber's and pdfminer's results are both insufficient
(`len ≤ 10`) and the OCR pass yields the empty string, `extract_text_from_pdf`
returns the literal sentinel `"No text found (even with OCR)."`. -/
theorem claim_C6_ocr_sentinel (env : PdfEnv) (p : Bool)
    (pages opages : List (List Char)) (raw : List Char)
    (hr : env.readOk = .ok ())
    (hp : env.plumberPages = .ok pages)
    (hA : (extract_with_pdfplumber pages p).length ≤ 10)
    (hm : env.minerText = .ok raw)
    (hB : (extract_with_pdfminer raw p).length ≤ 10)
    (ho : env.ocrPages = .ok opages)
    (hO : ocr_scanned_pdf opages p = []) :
    extract_text_from_pdf env p = noTextSentinel := by
  have hcondA : ¬(extract_with_pdfplumber pages p ≠ [] ∧
      10 < (extract_with_pdfplumber pages p).length) := by rintro ⟨-, h⟩; omega
  have hcondB : ¬(extract_with_pdfminer raw p ≠ [] ∧
      10 < (extract_with_pdfminer raw p).length) := by rintro ⟨-, h⟩; omega
  unfold extract_text_from_pdf pdfPipeline
  rw [hr, hp]
  simp only [hcondA, if_false]
  rw [hm]
  simp only [hcondB, if_false]
  rw [ho]
  simp [hO]

/-! ## Claim theorems: upload handler -/

theorem processFiles_append (env : HandlerEnv) (u v : List UploadFile) :
    processFiles env (u ++ v) =
      (processFiles env u).bind fun p1 =>
        (processFiles env v).map fun p2 => (p1.1 ++ p2.1, p1.2 ++ p2.2) := by
  induction u with
  | nil =>
    show processFiles env v = (Except.ok ([], [])).bind _
    cases hv : processFiles env v with
    | ok p => cases p; simp [Except.bind, Except.map]
    | error e => simp [Except.bind, Except.map]
  | cons f rest ih =>
    show processFiles env (f :: (rest ++ v)) = _
    simp only [processFiles]
    by_cases hA : allowed f.filename
    · rw [if_neg (by simp [hA]), if_neg (by simp [hA])]
      cases hExt : afterLastDot (env.secure f.filename) with
      | none => simp [hExt, Except.bind]
      | some ext0 =>
        simp only [hExt]
        rw [ih]
        cases hr : processFiles env rest with
        | error e => simp [Except.bind, Except.map]
        | ok p1 =>
          cases hv : processFiles env v with
          | error e => cases p1; simp [Except.bind, Except.map]
          | ok p2 =>
            cases p1; cases p2
            simp only [Except.bind, Except.map]
            split <;> split <;> simp_all
    · rw [if_pos (by simp [hA]), if_pos (by simp [hA])]
      rw [ih]
      cases hr : processFiles env rest with
      | error e => simp [Except.bind, Except.map]
      | ok p1 =>
        cases hv : processFiles env v with
        | error e => cases p1; simp [Except.bind, Except.map]
        | ok p2 => cases p1; cases p2; simp [Except.bind, Except.map]

/-- **C5.** A file whose extension is not allowed is rejected per-file: in any
upload batch it contributes exactly the error entry `"Unsupported: " ++ name`
at its position, contributes nothing to the results, and the remaining files
of the batch are processed exactly as if it were absent. -/
theorem claim_C5_unsupported_rejected (env : HandlerEnv) (xs ys : List UploadFile)
    (f : UploadFile) (hf : allowed f.filename = false) :
    processFiles env (xs ++ f :: ys) =
      (processFiles env xs).bind fun p1 =>
        (processFiles env ys).map fun p2 =>
          (p1.1 ++ p2.1, p1.2 ++ ("Unsupported: " ++ f.filename) :: p2.2) := by
  rw [processFiles_append]
  have h1 : processFiles env (f :: ys) =
      (processFiles env ys).map fun p =>
        (p.1, ("Unsupported: " ++ f.filename) :: p.2) := by
    simp only [processFiles]
    rw [if_pos (by simp [hf])]
  rw [h1]
  clear h1
  cases hx : processFiles env xs with
  | error e => simp [Except.bind]
  | ok p1 =>
    cases hy : processFiles env ys with
    | error e => cases p1; simp [Except.bind, Except.map]
    | ok p2 => cases p1; cases p2; simp [Except.bind, Except.map]

/-- **C7.** When extraction fails internally — for a PDF-routed file or for an
image-routed (png/jpg/jpeg) file — the returned `"Error extracting PDF text:"`
or `"Error extracting image text:"` string is non-empty after stripping, so
the handler appends it to `results` as the file's text (the `errors` list
stays empty), and it is exactly the combined text handed to `analyze_text`. -/
theorem claim_C7_error_string_treated_as_text (env : HandlerEnv) (f : UploadFile)
    (e : String) (ext0 : String) (msg : List Char)
    (hallow : allowed f.filename = true)
    (hext : afterLastDot (env.secure f.filename) = some ext0)
    (hroute :
      (pyLower ext0 = "pdf" ∧ pdfPipeline f.pdfEnv env.preserve = .error e ∧
        msg = "Error extracting PDF text: ".data ++ e.data) ∨
      (pyLower ext0 ∈ (["png", "jpg", "jpeg"] : List String) ∧
        imgPipeline f.imgEnv env.preserve = .error e ∧
        msg = "Error extracting image text: ".data ++ e.data)) :
    processFiles env [f] = .ok ([⟨env.secure f.filename, stripList msg⟩], []) ∧
    stripList msg ≠ [] ∧
    combinedText [⟨env.secure f.filename, stripList msg⟩] = stripList msg := by
  have hne : stripList msg ≠ [] := by
    rcases hroute with ⟨-, -, hmsg⟩ | ⟨-, -, hmsg⟩
    · rw [hmsg, show "Error extracting PDF text: ".data ++ e.data =
        'E' :: ("rror extracting PDF text: ".data ++ e.data) from rfl]
      exact stripList_cons_ne _ _ (by decide)
    · rw [hmsg, show "Error extracting image text: ".data ++ e.data =
        'E' :: ("rror extracting image text: ".data ++ e.data) from rfl]
      exact stripList_cons_ne _ _ (by decide)
  refine ⟨?_, hne, ?_⟩
  · rcases hroute with ⟨hpdf, herr, hmsg⟩ | ⟨himg, herr, hmsg⟩
    · have hx : extract_text_from_pdf f.pdfEnv env.preserve = msg := by
        unfold extract_text_from_pdf
        rw [herr, hmsg]
      simp only [processFiles, hext, hpdf]
      rw [if_neg (by simp [hallow])]
      simp [hx, Except.map, hne]
    · have hnp : pyLower ext0 ≠ "pdf" := by
        rcases (by simpa using himg :
            pyLower ext0 = "png" ∨ pyLower ext0 = "jpg" ∨ pyLower ext0 = "jpeg")
          with h | h | h <;> rw [h] <;> decide
      have hx : extract_text_from_image f.imgEnv env.preserve = msg := by
        unfold extract_text_from_image
        rw [herr, hmsg]
      simp only [processFiles, hext]
      rw [if_neg (by simp [hallow])]
      simp [hnp, hx, Except.map, hne]
  · simp [combinedText, joinBlankLine]

/-- **C9.** Flow-mode normalization of `"trans-\nform"` yields exactly
`"transform"`: the hyphen-broken word is joined with no hyphen or break. -/
theorem claim_C9_hyphen_repair :
    postprocess_text "trans-\nform".data false = "transform".data := by decide

/-- **C1, amended.** In preserve-layout mode the normalizer is idempotent on
every input: a second application of `_postprocess_text(·, True)` leaves the
first application's output unchanged.  (In flow mode idempotence fails on
inputs containing the internal placeholder `"<<<P>>>"`; see the
counterexample.) -/
theorem claim_C1_preserve_idempotent (s : List Char) :
    postprocess_text (postprocess_text s true) true = postprocess_text s true := by
  rw [postprocess_preserve s, postprocess_preserve]
  by_cases hs : s = []
  · rw [if_pos hs]
    simp
  · rw [if_neg hs]
    by_cases hy : stripList (collapse3 (remTrailWS (normalizeCRLF s))) = []
    · rw [if_pos hy]
      exact hy.symm
    · rw [if_neg hy]
      have h1 : okTrail (remTrailWS (normalizeCRLF s)) = true :=
        okTrail_remTrailWSGo (normalizeCRLF s) [] (by simp)
      have h2 : okTrail (collapse3 (remTrailWS (normalizeCRLF s))) = true :=
        okTrail_collapse3Go _ 0 h1
      have hokY : okTrail (stripList (collapse3 (remTrailWS (normalizeCRLF s)))) = true :=
        okTrail_stripWith isPySpace _ h2
      have hntY : noTriple (stripList (collapse3 (remTrailWS (normalizeCRLF s)))) = true :=
        noTriple_stripWith isPySpace _ (noTriple_collapse3Go _ 0)
      have hcrY : '\r' ∉ stripList (collapse3 (remTrailWS (normalizeCRLF s))) := by
        intro hin
        have hm1 := mem_stripWith isPySpace _ '\r' hin
        rcases mem_collapse3 _ '\r' hm1 with hm2 | hm2
        · exact absurd hm2 (by decide)
        · exact noCR_normalizeCRLF s (mem_remTrailWS _ '\r' hm2)
      rw [normalizeCRLF_id_of_noCR _ hcrY, remTrailWS_eq_self _ hokY,
        collapse3_eq_self _ hntY]
      exact stripList_idem _

/-- **C1, counterexample.** The normalizer is not idempotent in flow mode: on
`"a-<<<P>>>b"` one application gives `"a-\n\nb"`, whose second application
gives `"ab"`. -/
theorem claim_C1_counterexample :
    postprocess_text (postprocess_text "a-<<<P>>>b".data false) false ≠
      postprocess_text "a-<<<P>>>b".data false ∧
    postprocess_text "a-<<<P>>>b".data false = "a-\n\nb".data ∧
    postprocess_text "a-\n\nb".data false = "ab".data := by
  refine ⟨?_, by decide, by decide⟩
  decide

/-- **C10, counterexample.** An occurrence of `"<<<P>>>"` is *not* always
converted into a paragraph break in the output: for the input consisting of
the placeholder alone, the restored break is removed again by the final
`strip`, and the output is empty. -/
theorem claim_C10_counterexample :
    postprocess_text "<<<P>>>".data false = [] ∧
    ('\n' ∉ postprocess_text "<<<P>>>".data false) := by
  exact ⟨by decide, by decide⟩

/-- **C10, amended.** In flow mode, every occurrence of the literal
`"<<<P>>>"` separating non-empty, placeholder-free, whitespace-free text
blocks is converted into a paragraph break — two line breaks — by the
unconditional placeholder restore: an input of `n ≥ 2` such blocks joined by
the placeholder maps to the same blocks joined by exactly two line breaks; in
particular such newline-free inputs are not mapped to newline-free outputs.
(An occurrence at the very start or end of the input need not survive the
final `strip`; see the counterexample.) -/
theorem claim_C10_placeholder_paragraph (xs : List (List Char))
    (hlen : 2 ≤ xs.length)
    (hx : ∀ x ∈ xs, x ≠ [] ∧ (∀ c ∈ x, isPySpace c = false) ∧
      placeholderFree x = true) :
    postprocess_text (sepBy placeholder xs) false = sepBy ['\n', '\n'] xs ∧
    '\n' ∉ sepBy placeholder xs ∧ '\n' ∈ sepBy ['\n', '\n'] xs := by
  obtain ⟨x0, y0, rest0, hxs⟩ : ∃ x0 y0 rest0, xs = x0 :: y0 :: rest0 := by
    cases xs with
    | nil => simp at hlen
    | cons x rest =>
      cases rest with
      | nil => simp at hlen
      | cons y rest2 => exact ⟨x, y, rest2, rfl⟩
  have hplns : ∀ c ∈ placeholder, isPySpace c = false := by decide
  have hnsS : ∀ c ∈ sepBy placeholder xs, isPySpace c = false := by
    intro c hc
    rcases mem_sepBy placeholder xs c hc with h | ⟨z, hz, hcz⟩
    · exact hplns c h
    · exact (hx z hz).2.1 c hcz
  have hnl : '\n' ∉ sepBy placeholder xs := fun h => absurd (hnsS '\n' h) (by decide)
  have hcr : '\r' ∉ sepBy placeholder xs := fun h => absurd (hnsS '\r' h) (by decide)
  have hSne : sepBy placeholder xs ≠ [] :=
    sepBy_ne_nil placeholder xs (by rw [hxs]; simp) fun z hz => (hx z hz).1
  have e1 : normalizeCRLF (sepBy placeholder xs) = sepBy placeholder xs := by
    unfold normalizeCRLF
    rw [pyReplace_id_of_head_notMem '\r' ['\n'] ['\n'] _ hcr]
    exact pyReplace_id_of_head_notMem '\r' [] ['\n'] _ hcr
  have eNorm : normalize_hyphenation_and_spaces (sepBy placeholder xs)
      = sepBy placeholder xs := by
    unfold normalize_hyphenation_and_spaces
    rw [if_neg hSne, hyphenJoin_id_of_no_nl _ hnl, remTrailWS_id_of_no_nl _ hnl,
      remLeadWS_id_of_no_nl _ hnl, collapse3_id_of_no_nl _ hnl]
    exact stripWith_id_of_none _ _ hnsS
  have eSeg : pyReplace placeholder ['\n', '\n'] (sepBy placeholder xs)
      = sepBy ['\n', '\n'] xs :=
    pyReplace_sepBy ['\n', '\n'] xs fun z hz => (hx z hz).2.2
  have hWmem : ∀ c ∈ sepBy ['\n', '\n'] xs, c = '\n' ∨ ∃ z ∈ xs, c ∈ z := by
    intro c hc
    rcases mem_sepBy ['\n', '\n'] xs c hc with h | h
    · left
      have h2 := h
      simp at h2
      exact h2
    · right
      exact h
  have hWblank : ∀ c ∈ sepBy ['\n', '\n'] xs, isBlank c = false := by
    intro c hc
    rcases hWmem c hc with h | ⟨z, hz, hcz⟩
    · rw [h]; decide
    · cases hq : isBlank c with
      | false => rfl
      | true => exact absurd ((hx z hz).2.1 c hcz) (by simp [isPySpace_of_isBlank c hq])
  have hWtriple : noTriple (sepBy ['\n', '\n'] xs) = true :=
    noTriple_sepBy xs fun z hz => ⟨(hx z hz).1,
      fun h => absurd ((hx z hz).2.1 '\n' h) (by decide)⟩
  obtain ⟨c0, x0t, hx0⟩ : ∃ c t, x0 = c :: t := by
    have h1 := (hx x0 (by rw [hxs]; simp)).1
    cases x0 with
    | nil => exact absurd rfl h1
    | cons c t => exact ⟨c, t, rfl⟩
  have hxsne : xs ≠ [] := by rw [hxs]; simp
  obtain ⟨xe, hxe⟩ : ∃ xe, xs.getLast? = some xe :=
    ⟨xs.getLast hxsne, List.getLast?_eq_getLast xs hxsne⟩
  have hxe_mem : xe ∈ xs := List.mem_of_mem_getLast? hxe
  have hxe_ne : xe ≠ [] := (hx xe hxe_mem).1
  obtain ⟨uxe, zxe, hxe2⟩ : ∃ u z, xe = u ++ [z] := by
    rcases (List.eq_nil_or_concat xe).resolve_left hxe_ne with ⟨u, z, h⟩
    exact ⟨u, z, by rw [h, List.concat_eq_append]⟩
  have hzxe : isPySpace zxe = false :=
    (hx xe hxe_mem).2.1 zxe (by rw [hxe2]; exact List.mem_append_right uxe (by simp))
  have hWlast? : (sepBy ['\n', '\n'] xs).getLast? = some zxe := by
    rw [sepBy_getLast? ['\n', '\n'] xs xe hxsne (fun z hz => (hx z hz).1) hxe,
      hxe2]
    exact List.getLast?_concat uxe
  have hWhead : ∃ L, sepBy ['\n', '\n'] xs = c0 :: L := by
    rw [hxs, hx0]
    exact sepBy_head ['\n', '\n'] c0 x0t (y0 :: rest0)
  have hc0 : isPySpace c0 = false :=
    (hx x0 (by rw [hxs]; simp)).2.1 c0 (by rw [hx0]; simp)
  have e8 : collapse3 (sepBy ['\n', '\n'] xs) = sepBy ['\n', '\n'] xs :=
    collapse3_eq_self _ hWtriple
  have e9 : stripList (sepBy ['\n', '\n'] xs) = sepBy ['\n', '\n'] xs := by
    obtain ⟨L, hL⟩ := hWhead
    apply stripWith_id_of_opt isPySpace _ (by rw [hL]; simp)
    · intro x hx2
      have hx3 : some c0 = some x := by rw [← hx2, hL]; rfl
      rw [← Option.some.inj hx3]
      exact hc0
    · intro x hx2
      rw [hWlast?] at hx2
      rw [← Option.some.inj hx2]
      exact hzxe
  have hmemW : '\n' ∈ sepBy ['\n', '\n'] xs := by
    rw [hxs]
    show '\n' ∈ x0 ++ ['\n', '\n'] ++ sepBy ['\n', '\n'] (y0 :: rest0)
    exact List.mem_append_left _ (List.mem_append_right x0 (by simp))
  refine ⟨?_, hnl, hmemW⟩
  unfold postprocess_text
  rw [if_neg hSne]
  simp only [Bool.false_eq_true, if_false]
  rw [e1, eNorm]
  unfold join_soft_linebreaks_keep_paragraphs
  rw [if_neg hSne, e1,
    pyReplace_id_of_head_notMem '\n' ['\n'] placeholder _ hnl,
    pyReplace_id_of_head_notMem '\n' [] [' '] _ hnl,
    eSeg, collapseBlanks_id_of_no_blank _ hWblank, e8, e9]

theorem postprocess_preserve_id_of_plain (a : List Char)
    (hA : ∀ c ∈ a, isPySpace c = false) : postprocess_text a true = a := by
  by_cases hne : a = []
  · subst hne; rfl
  rw [postprocess_preserve, if_neg hne]
  have hcr : '\r' ∉ a := fun h => absurd (hA '\r' h) (by decide)
  have hnl : '\n' ∉ a := fun h => absurd (hA '\n' h) (by decide)
  have hbl : ∀ c ∈ a, isBlank c = false := by
    intro c hc
    cases hb : isBlank c with
    | false => rfl
    | true => exact absurd (hA c hc) (by simp [isPySpace_of_isBlank c hb])
  rw [normalizeCRLF_id_of_noCR a hcr, remTrailWS_eq_self a (okTrail_of_no_blank a hbl),
    collapse3_id_of_no_nl a hnl]
  exact stripWith_id_of_none isPySpace a hA

theorem gemini_fail_empty (genv : GeminiEnv) (hfail : geminiFails genv) (t : String) :
    generate_insights_with_gemini genv t = .dict {} := by
  unfold generate_insights_with_gemini
  rcases hfail with h | ⟨e, h⟩ | ⟨raw, e, hr, hp⟩
  · rw [h]
  · cases hk : genv.apiKey with
    | none => rfl
    | some k => rw [h]
  · cases hk : genv.apiKey with
    | none => rfl
    | some k =>
      rw [hr]
      show (match genv.parse (geminiProcessRaw raw) with
        | Except.error _ => PyJson.dict {}
        | Except.ok v => v) = PyJson.dict {}
      rw [hp]

/-- **C4, amended.** When the Gemini call fails (no credentials, a raised
service call, or a JSON parse failure), `generate_insights_with_gemini`
returns the empty dict, and for every input whose *stripped* text is non-empty
`analyze_text` returns the default caption, empty `recommended_hashtags` and
`engagement`, and a summary populated from local computation only.  (A
non-empty but whitespace-only input instead takes the early empty return and
carries no caption at all; see the counterexample.) -/
theorem claim_C4_gemini_fallback (aenv : AnalyzeEnv) (genv : GeminiEnv) (text0 : String)
    (hfail : geminiFails genv) (hne : pyStrip text0 ≠ "") :
    generate_insights_with_gemini genv (pyStrip text0) = .dict {} ∧
    analyze_text aenv genv text0 =
      { summary := some (localSummary aenv (pyStrip text0))
        engagement := []
        ai_generated := some { caption := defaultCaption, recommended_hashtags := [] } } := by
  refine ⟨gemini_fail_empty genv hfail _, ?_⟩
  simp only [analyze_text]
  rw [if_neg hne, gemini_fail_empty genv hfail (pyStrip text0)]
  rfl

/-- **C4, counterexample.** The whitespace-only input `" "` is a non-empty
text on which the Gemini call fails, yet `analyze_text` returns the early
empty result: `ai_generated` is absent, so its `caption` field is not the
default fallback string. -/
theorem claim_C4_counterexample :
    geminiFails wGeminiFailEnv ∧ (" " : String) ≠ "" ∧
    analyze_text wAnalyzeEnv wGeminiFailEnv " " =
      { summary := none, engagement := [], ai_generated := none } :=
  ⟨Or.inl rfl, by decide, by decide⟩

theorem claim_C4_witness :
    (geminiFails wGeminiFailEnv ∧ pyStrip "hello world" ≠ "") ∧
    (generate_insights_with_gemini wGeminiFailEnv (pyStrip "hello world") = .dict {} ∧
     analyze_text wAnalyzeEnv wGeminiFailEnv "hello world" =
       { summary := some (localSummary wAnalyzeEnv (pyStrip "hello world"))
         engagement := []
         ai_generated := some { caption := defaultCaption, recommended_hashtags := [] } }) :=
  ⟨⟨Or.inl rfl, by decide⟩,
    claim_C4_gemini_fallback wAnalyzeEnv wGeminiFailEnv "hello world" (Or.inl rfl) (by decide)⟩

theorem claim_C2_witness :
    (wPdfEnvShort.readOk = .ok () ∧ wPdfEnvShort.plumberPages = .ok ["hi".data] ∧
      (extract_with_pdfplumber ["hi".data] false).length ≤ 10) ∧
    ((extract_text_from_pdf wPdfEnvShort false =
      match pdfPipelineFromMiner wPdfEnvShort false with
      | .ok s => s
      | .error e => "Error extracting PDF text: ".data ++ e.data) ∧
    (∀ raw, wPdfEnvShort.minerText = .ok raw →
      (extract_with_pdfminer raw false).length ≤ 10 →
      pdfPipelineFromMiner wPdfEnvShort false = pdfPipelineFromOcr wPdfEnvShort false)) :=
  ⟨⟨rfl, rfl, by decide⟩,
    claim_C2_threshold_fallback wPdfEnvShort false ["hi".data] rfl rfl (by decide)⟩

theorem claim_C6_witness :
    (wPdfEnvShort.readOk = .ok () ∧ wPdfEnvShort.plumberPages = .ok ["hi".data] ∧
      (extract_with_pdfplumber ["hi".data] false).length ≤ 10 ∧
      wPdfEnvShort.minerText = .ok "short".data ∧
      (extract_with_pdfminer "short".data false).length ≤ 10 ∧
      wPdfEnvShort.ocrPages = .ok [] ∧ ocr_scanned_pdf [] false = []) ∧
    extract_text_from_pdf wPdfEnvShort false = noTextSentinel :=
  ⟨⟨rfl, rfl, by decide, rfl, by decide, rfl, rfl⟩,
    claim_C6_ocr_sentinel wPdfEnvShort false ["hi".data] [] "short".data
      rfl rfl (by decide) rfl (by decide) rfl rfl⟩

theorem claim_C5_witness :
    allowed wDocxFile.filename = false ∧
    processFiles wHandlerEnv ([] ++ wDocxFile :: []) =
      (processFiles wHandlerEnv []).bind fun p1 =>
        (processFiles wHandlerEnv []).map fun p2 =>
          (p1.1 ++ p2.1, p1.2 ++ ("Unsupported: " ++ wDocxFile.filename) :: p2.2) :=
  ⟨by decide,
    claim_C5_unsupported_rejected wHandlerEnv [] [] wDocxFile (by decide)⟩

theorem claim_C7_witness :
    (allowed wErrImgFile.filename = true ∧
      afterLastDot (wHandlerEnv.secure wErrImgFile.filename) = some "png" ∧
      pyLower "png" ∈ (["png", "jpg", "jpeg"] : List String) ∧
      imgPipeline wErrImgFile.imgEnv wHandlerEnv.preserve = .error "img boom") ∧
    (processFiles wHandlerEnv [wErrImgFile] =
      .ok ([⟨wHandlerEnv.secure wErrImgFile.filename,
            stripList ("Error extracting image text: ".data ++ "img boom".data)⟩], []) ∧
    stripList ("Error extracting image text: ".data ++ "img boom".data) ≠ [] ∧
    combinedText [⟨wHandlerEnv.secure wErrImgFile.filename,
        stripList ("Error extracting image text: ".data ++ "img boom".data)⟩] =
      stripList ("Error extracting image text: ".data ++ "img boom".data)) :=
  ⟨⟨by decide, by decide, by decide, rfl⟩,
    claim_C7_error_string_treated_as_text wHandlerEnv wErrImgFile "img boom" "png"
      ("Error extracting image text: ".data ++ "img boom".data)
      (by decide) (by decide) (Or.inr ⟨by decide, rfl, rfl⟩)⟩

theorem claim_C10_witness :
    (2 ≤ ([("Py".data : List Char), "thon".data] : List (List Char)).length ∧
      (∀ x ∈ ([("Py".data : List Char), "thon".data] : List (List Char)),
        x ≠ [] ∧ (∀ c ∈ x, isPySpace c = false) ∧ placeholderFree x = true)) ∧
    (postprocess_text (sepBy placeholder ["Py".data, "thon".data]) false
        = sepBy ['\n', '\n'] ["Py".data, "thon".data] ∧
      '\n' ∉ sepBy placeholder ["Py".data, "thon".data] ∧
      '\n' ∈ sepBy ['\n', '\n'] ["Py".data, "thon".data]) :=
  ⟨⟨by decide, by decide⟩,
    claim_C10_placeholder_paragraph ["Py".data, "thon".data] (by decide) (by decide)⟩

end SMA
